import Mathlib

/-!
# argparse (consolearg.cpp): a shallow embedding and its verified properties

The C++ library is template code over caller types `T` and `V`.  The embedding
takes one universe of values `Val`; a caller variable (`T& target`) is an
address into a store `Nat → Val`.  Streams (`std::ostream`) are the text
written to them so far.  A thrown `ParserError` and a call of `exit` are
explicit control-flow results that carry the state reached when they happen.
-/

namespace argparse

/-! ## ParserError, Arguments -/

/-- The exception `ParserError`; `what` is the text of `runtime_error::what()`. -/
structure ParserError where
  what : String
deriving DecidableEq, Repr

/-- The constructor `ParserError(error)`: `runtime_error("error: " + error)`. -/
def ParserError.new (error : String) : ParserError :=
  ⟨"error: " ++ error⟩

/-- The class `Arguments`: the tokens not consumed yet. -/
structure Arguments where
  args : List String
deriving DecidableEq, Repr

/-- The constructor `Arguments(argc, argv)`: every entry of `argv` but the first. -/
def Arguments.new (argv : List String) : Arguments :=
  ⟨argv.drop 1⟩

/-- The operator `operator[](index)`; the source only calls it on an index in range. -/
def Arguments.index (a : Arguments) (index : Nat) : String :=
  a.args.getD index ""

/-- The method `empty()`. -/
def Arguments.empty (a : Arguments) : Bool :=
  a.args.isEmpty

/-- The method `size()`. -/
def Arguments.size (a : Arguments) : Nat :=
  a.args.length

/-- The default value of the parameter `error` of `Arguments::get`. -/
def Arguments.noMore : String :=
  "no more arguments available"

/-- The method `get(error)`: throws `ParserError(error)` on an empty stream, else
removes and returns the first token. -/
def Arguments.get (a : Arguments) (error : String) : Except ParserError (String × Arguments) :=
  match a.args with
  | [] => .error (ParserError.new error)
  | r :: rest => .ok (r, ⟨rest⟩)

/-! ## StandardConverter -/

/-- The C library `isspace` in the "C" locale. -/
def isspace (c : Char) : Bool :=
  c == ' ' || c == '\t' || c == '\n' || c == '\x0b' || c == '\x0c' || c == '\r'

/-- The function template `StandardConverter<T>`; `extract` stands for
`std::istringstream(type) >> t` at type `T`: `some t` when the stream is good
after the extraction, `none` when it has failed. -/
def StandardConverter {Val : Type} (extract : String → Option Val) (type : String) :
    Except ParserError Val :=
  match extract type with
  | some t => .ok t
  | none => .error (ParserError.new ("Failed to parse " ++ type))

/-- Value of a run of decimal digits, most significant first. -/
def digitsValue (ds : List Char) : Nat :=
  ds.foldl (fun acc c => 10 * acc + (c.toNat - '0'.toNat)) 0

/-- The extraction `istream >> int` of the C++ standard library (flags `skipws`
and `dec`): leading white space is skipped, an optional sign and the longest
run of decimal digits are read, and whatever follows is left in the stream.
The extraction fails when there is no digit or the value is no 32-bit `int`. -/
def extractInt (s : String) : Option Int :=
  let cs := s.data.dropWhile isspace
  let neg := cs.head? == some '-'
  let body := if cs.head? == some '-' || cs.head? == some '+' then cs.drop 1 else cs
  let ds := body.takeWhile Char.isDigit
  if ds.isEmpty then none
  else
    let v : Int := if neg then - (digitsValue ds : Int) else (digitsValue ds : Int)
    if - (2147483648 : Int) ≤ v ∧ v ≤ 2147483647 then some v else none

/-- The extraction `istream >> std::string` of the C++ standard library: leading
white space is skipped and characters are read up to the next white space; it
fails when no character was read. -/
def extractString (s : String) : Option String :=
  let w := (s.data.dropWhile isspace).takeWhile (fun c => !isspace c)
  if w.isEmpty then none else some ⟨w⟩

/-! ## Count, Extra -/

/-- The enumeration `Count::Type`. -/
inductive CountType where
  | Const
  | MoreThanOne
  | Optional
  | None
  | ZeroOrMore
deriving DecidableEq, Repr

/-- The class `Count`. -/
structure Count where
  mCount : Nat
  mType : CountType
deriving DecidableEq, Repr

/-- The constructor `Count(size_t c)`. -/
def Count.ofSize (c : Nat) : Count :=
  ⟨c, .Const⟩

/-- The constructor `Count(Type t)` (it asserts `t != Const`). -/
def Count.ofType (t : CountType) : Count :=
  ⟨0, t⟩

/-- The method `Count::type()`. -/
def Count.type (c : Count) : CountType :=
  c.mType

/-- The method `Count::count()`. -/
def Count.count (c : Count) : Nat :=
  c.mCount

/-- The class `Extra`, with its setters as record updates. -/
structure Extra where
  mHelp : String
  mCount : Count
  mMetavar : String
deriving DecidableEq, Repr

/-- The constructor `Extra()`: `mCount(1)`, the strings empty. -/
def Extra.new : Extra :=
  ⟨"", Count.ofSize 1, ""⟩

/-- The setter `Extra::help(h)`. -/
def Extra.help (e : Extra) (h : String) : Extra :=
  { e with mHelp := h }

/-- The setter `Extra::count(c)`. -/
def Extra.count (e : Extra) (c : Count) : Extra :=
  { e with mCount := c }

/-- The setter `Extra::metavar(metavar)`. -/
def Extra.metavar (e : Extra) (metavar : String) : Extra :=
  { e with mMetavar := metavar }

/-! ## IsOptional, Upper, Help -/

/-- The function `IsOptional`: false on the empty string, else whether the first
character is `-`. -/
def IsOptional (arg : String) : Bool :=
  match arg.data with
  | [] => false
  | c :: _ => c == '-'

/-- The function `Upper`: `toupper` ("C" locale) on every character. -/
def Upper (s : String) : String :=
  ⟨s.data.map Char.toUpper⟩

/-- The call `s.substr(1)` on a non-empty string. -/
def substr1 (s : String) : String :=
  ⟨s.data.drop 1⟩

/-- The class `Help`. -/
structure Help where
  name : String
  help : String
  metavar : String
  count : CountType
  countcount : Nat
deriving DecidableEq, Repr

/-- The constructor `Help(aname, e)`. -/
def Help.new (aname : String) (e : Extra) : Help :=
  ⟨aname, e.mHelp, e.mMetavar, e.mCount.type, e.mCount.count⟩

/-- The method `Help::metavarname`. -/
def Help.metavarname (h : Help) : String :=
  if h.metavar.isEmpty == false then h.metavar
  else if IsOptional h.name then Upper (substr1 h.name)
  else h.name

/-- The `for` loop of the `Const` case of `metavarrep`: `k` iterations are left,
`i` is the loop counter and `ss` the text written so far. -/
def Help.constLoop (h : Help) : Nat → Nat → String → String
  | 0, _, ss => ss
  | k + 1, i, ss => Help.constLoop h k (i + 1) ((if i != 0 then ss ++ " " else ss) ++ h.metavarname)

/-- The method `Help::metavarrep`. -/
def Help.metavarrep (h : Help) : String :=
  match h.count with
  | .None => ""
  | .MoreThanOne => h.metavarname ++ " [" ++ h.metavarname ++ " ...]"
  | .Optional => "[" ++ h.metavarname ++ "]"
  | .ZeroOrMore => "[" ++ h.metavarname ++ " [" ++ h.metavarname ++ " ...]]"
  | .Const => Help.constLoop h h.countcount 0 "[" ++ "]"

/-- The method `Help::usage`. -/
def Help.usage (h : Help) : String :=
  if IsOptional h.name then "[" ++ h.name ++ " " ++ h.metavarrep ++ "]"
  else h.metavarrep

/-- The method `Help::helpCommand`. -/
def Help.helpCommand (h : Help) : String :=
  if IsOptional h.name then h.name ++ " " ++ h.metavarrep
  else h.metavarname

/-- The method `Help::helpDescription`. -/
def Help.helpDescription (h : Help) : String :=
  h.help

/-! ## Running, control flow, arguments -/

/-- The struct `Running`: the program name and the text written to `o` so far. -/
structure Running where
  app : String
  o : String
deriving DecidableEq, Repr

/-- What an argument's `parse` can touch: the running context, the token
stream, and the caller's variables (by address). -/
structure State (Val : Type) where
  r : Running
  args : Arguments
  vars : Nat → Val

/-- How a piece of code ends, with the state it ends in: it returns, a
`ParserError` propagates out of it, or it calls `exit`. -/
inductive Flow (σ : Type) where
  | ret (s : σ)
  | throw (e : ParserError) (s : σ)
  | exit (code : Int) (s : σ)

/-- The state a flow ends in. -/
def Flow.state {σ : Type} : Flow σ → σ
  | .ret s => s
  | .throw _ s => s
  | .exit _ s => s

/-- Store update: the variable at `addr` becomes `v`. -/
def assignVar {Val : Type} (vars : Nat → Val) (addr : Nat) (v : Val) : Nat → Val :=
  fun a => if a = addr then v else vars a

/-- The class template `ArgumentT<T, V>`: `target` is the address of the caller
variable bound by `T& target`; `combine t v` is the value of the target after
`combine(target, v)` when it held `t` before. -/
structure ArgumentT (Val : Type) where
  target : Nat
  count : Count
  combine : Val → Val → Val
  converter : String → Except ParserError Val

/-- The statement `combine(target, converter(args.get(error)))`. -/
def ArgumentT.take {Val : Type} (a : ArgumentT Val) (s : State Val) (error : String) :
    Flow (State Val) :=
  match s.args.get error with
  | .error e => .throw e s
  | .ok (tok, rest) =>
    match a.converter tok with
    | .error e => .throw e { s with args := rest }
    | .ok v => .ret { s with args := rest,
                             vars := assignVar s.vars a.target (a.combine (s.vars a.target) v) }

/-- The text built in `ss` by iteration `i` of the `Const` loop. -/
def ArgumentT.constMessage {Val : Type} (a : ArgumentT Val) (argname : String) (i : Nat) : String :=
  "argument " ++ argname ++ ": expected " ++
    (if a.count.count = 1 then "one argument"
     else toString a.count.count ++ " argument(s), " ++ toString i ++ " already given")

/-- The `for` loop of `case Count::Const`: `k` iterations are left and `i` is the
loop counter. -/
def ArgumentT.constLoop {Val : Type} (a : ArgumentT Val) (argname : String) :
    Nat → Nat → State Val → Flow (State Val)
  | 0, _, s => .ret s
  | k + 1, i, s =>
    match a.take s (a.constMessage argname i) with
    | .ret s1 => ArgumentT.constLoop a argname k (i + 1) s1
    | f => f

/-- The `while` loop of `case Count::ZeroOrMore`, by recursion on the stream
`toks` still to be read: the loop stops on an empty stream and on a first token
that `IsOptional`, and else takes the first token (`get` cannot fail there). -/
def ArgumentT.whileLoop {Val : Type} (a : ArgumentT Val) (r : Running) :
    List String → (Nat → Val) → Flow (State Val)
  | [], vars => .ret ⟨r, ⟨[]⟩, vars⟩
  | tok :: rest, vars =>
    if IsOptional tok == false then
      match a.converter tok with
      | .error e => .throw e ⟨r, ⟨rest⟩, vars⟩
      | .ok v => ArgumentT.whileLoop a r rest (assignVar vars a.target (a.combine (vars a.target) v))
    else .ret ⟨r, ⟨tok :: rest⟩, vars⟩

/-- The method `ArgumentT::parse`. -/
def ArgumentT.parse {Val : Type} (a : ArgumentT Val) (s : State Val) (argname : String) :
    Flow (State Val) :=
  match a.count.type with
  | .Const => a.constLoop argname a.count.count 0 s
  | .MoreThanOne =>
    match a.take s ("argument " ++ argname ++ ": expected atleast one argument") with
    | .ret s1 => a.whileLoop s1.r s1.args.args s1.vars
    | f => f
  | .ZeroOrMore => a.whileLoop s.r s.args.args s.vars
  | .Optional =>
    if s.args.empty then .ret s
    else if IsOptional (s.args.index 0) then .ret s
    else a.take s "internal error"
  | .None => .ret s

/-- What a call of a user callback does: how it ends, the text it wrote to
`r.o`, how many tokens it took with `Arguments::get`, and the caller's variables
after it. -/
structure CallbackEffect (Val : Type) where
  ending : Flow Unit
  written : String
  taken : Nat
  vars : Nat → Val

/-- The type `ArgumentCallback`: either the parser's own `CallHelp(this)`, or
any other function of the running context, the stream, the caller's variables
and the matched name. -/
inductive ArgumentCallback (Val : Type) where
  | CallHelp
  | function (f : Running → Arguments → (Nat → Val) → String → CallbackEffect Val)

/-- The class `Argument` with its two subclasses. -/
inductive Argument (Val : Type) where
  | FunctionArgument (function : ArgumentCallback Val)
  | ArgumentT (a : ArgumentT Val)

/-- The state after a user callback with effect `e` was run in state `s`. -/
def CallbackEffect.apply {Val : Type} (e : CallbackEffect Val) (s : State Val) :
    Flow (State Val) :=
  let s1 : State Val := ⟨⟨s.r.app, s.r.o ++ e.written⟩, ⟨s.args.args.drop e.taken⟩, e.vars⟩
  match e.ending with
  | .ret _ => .ret s1
  | .throw err _ => .throw err s1
  | .exit code _ => .exit code s1

/-! ## Combiners -/

/-- The function template `Assign`: `a = b`. -/
def Assign {Val : Type} (_a : Val) (b : Val) : Val :=
  b

/-- The values of the types the program in `main` instantiates the templates at. -/
inductive Value where
  | int (i : Int)
  | string (s : String)
  | strings (v : List String)
deriving DecidableEq, Repr

/-- The function template `PushBackVector` at `std::string`: `vec.push_back(t)`. -/
def PushBackVector (vec : Value) (t : Value) : Value :=
  match vec, t with
  | .strings v, .string s => .strings (v ++ [s])
  | v, _ => v

/-- The extraction `>>` at `int`, into `Value`. -/
def extractIntValue (s : String) : Option Value :=
  (extractInt s).map Value.int

/-- The extraction `>>` at `std::string`, into `Value`. -/
def extractStringValue (s : String) : Option Value :=
  (extractString s).map Value.string

/-! ## Parser -/

/-- The enumeration `Parser::ParseStatus`. -/
inductive ParseStatus where
  | ParseFailed
  | ParseComplete
deriving DecidableEq, Repr

/-- The type `Optionals`, a `std::map<std::string, ArgumentPtr>`, as the list of
its entries; keys are unique. -/
abbrev Optionals (Val : Type) := List (String × Argument Val)

/-- The call `optionals.find(arg)`: the argument stored under the key, if any. -/
def Optionals.find {Val : Type} (m : Optionals Val) (arg : String) : Option (Argument Val) :=
  match m with
  | [] => none
  | (k, v) :: rest => if k = arg then some v else Optionals.find rest arg

/-- The call `optionals.insert(value_type(name, arg))` of `std::map`: the entry is
added when the key is absent, and the map is left as it is when the key is
present. -/
def Optionals.insert {Val : Type} (m : Optionals Val) (name : String) (arg : Argument Val) :
    Optionals Val :=
  match Optionals.find m name with
  | some _ => m
  | none => m ++ [(name, arg)]

/-- The class `Parser`. -/
structure Parser (Val : Type) where
  description : String
  appname : String
  optionals : Optionals Val
  positionals : List (Argument Val)
  positionalIndex : Nat
  helpOptional : List Help
  helpPositional : List Help

/-- The method `Parser::insert`. -/
def Parser.insert {Val : Type} (p : Parser Val) (name : String) (arg : Argument Val)
    (extra : Extra) : Parser Val :=
  if IsOptional name then
    { p with optionals := Optionals.insert p.optionals name arg,
             helpOptional := p.helpOptional ++ [Help.new name extra] }
  else
    { p with positionals := p.positionals ++ [arg],
             helpPositional := p.helpPositional ++ [Help.new name extra] }

/-- The method `Parser::add<T, V>`. -/
def Parser.add {Val : Type} (p : Parser Val) (name : String) (var : Nat) (extra : Extra)
    (combiner : Val → Val → Val) (co : String → Except ParserError Val) : Parser Val :=
  p.insert name (.ArgumentT ⟨var, extra.mCount, combiner, co⟩) extra

/-- The method `Parser::addFunction`. -/
def Parser.addFunction {Val : Type} (p : Parser Val) (name : String)
    (func : ArgumentCallback Val) (extra : Extra) : Parser Val :=
  p.insert name (.FunctionArgument func) extra

/-- The template `Parser::operator()` at type `T`, whose extraction `>>` is
`extract`: it calls `add<T, T>(name, var, extra, combiner)`, so `add` takes its
default converter `StandardConverter<T>`, whatever `co` is. -/
def Parser.call {Val : Type} (p : Parser Val) (extract : String → Option Val) (name : String)
    (var : Nat) (extra : Extra) (combiner : Val → Val → Val)
    (_co : String → Except ParserError Val) : Parser Val :=
  p.add name var extra combiner (StandardConverter extract)

/-- The overload `Parser::operator()(name, func, extra)`. -/
def Parser.callFunction {Val : Type} (p : Parser Val) (name : String)
    (func : ArgumentCallback Val) (extra : Extra) : Parser Val :=
  p.addFunction name func extra

/-- The constructor `Parser(d, aappname)`. -/
def Parser.new {Val : Type} (d : String) (aappname : String) : Parser Val :=
  Parser.addFunction ⟨d, aappname, [], [], 0, [], []⟩ "-h" .CallHelp
    ((Extra.new.count (Count.ofType .None)).help "show this help message and exit")

/-- The text `BOOST_FOREACH(const Help& h, hs) r.o << " " << h.usage()` writes. -/
def usageList (hs : List Help) : String :=
  hs.foldl (fun acc h => acc ++ " " ++ h.usage) ""

/-- The method `Parser::writeUsage`. -/
def Parser.writeUsage {Val : Type} (p : Parser Val) (r : Running) : Running :=
  { r with o := r.o ++ "usage: " ++ r.app ++ usageList p.helpOptional
                  ++ usageList p.helpPositional ++ "\n" }

/-- The text one `BOOST_FOREACH` of `writeHelp` writes for the entries `hs`. -/
def helpList (hs : List Help) : String :=
  hs.foldl (fun acc h => acc ++ "  " ++ h.helpCommand ++ "\t" ++ h.helpDescription ++ "\n") ""

/-- The method `Parser::writeHelp`. -/
def Parser.writeHelp {Val : Type} (p : Parser Val) (r : Running) : Running :=
  let r1 := p.writeUsage r
  let o1 := r1.o ++ "\n" ++ p.description ++ "\n" ++ "\n"
  let o2 := if p.helpPositional.isEmpty == false then
      o1 ++ "positional arguments: " ++ "\n" ++ helpList p.helpPositional ++ "\n"
    else o1
  let o3 := if p.helpOptional.isEmpty == false then
      o2 ++ "optional arguments: " ++ "\n" ++ helpList p.helpOptional
    else o2
  { r1 with o := o3 ++ "\n" }

/-- The virtual call `arg->parse(running, args, argname)` made by parser `p`;
`CallHelp` writes the help of `p` and calls `exit(0)`. -/
def Argument.parse {Val : Type} (p : Parser Val) (arg : Argument Val) (s : State Val)
    (argname : String) : Flow (State Val) :=
  match arg with
  | .ArgumentT a => a.parse s argname
  | .FunctionArgument .CallHelp => .exit 0 { s with r := p.writeHelp s.r }
  | .FunctionArgument (.function f) => (f s.r s.args s.vars argname).apply s

/-- The state of the loop in `parseArgs`: the state arguments act on, and the
member `positionalIndex`. -/
structure LoopState (Val : Type) where
  st : State Val
  positionalIndex : Nat

/-- A flow of argument states as a flow of loop states with cursor `i`. -/
def Flow.withIndex {Val : Type} (f : Flow (State Val)) (i : Nat) : Flow (LoopState Val) :=
  match f with
  | .ret s => .ret ⟨s, i⟩
  | .throw e s => .throw e ⟨s, i⟩
  | .exit c s => .exit c ⟨s, i⟩

/-- One pass through the body of the `while` loop of `parseArgs`, entered with a
stream that is not empty. -/
def Parser.dispatch {Val : Type} (p : Parser Val) (s : LoopState Val) : Flow (LoopState Val) :=
  if IsOptional (s.st.args.index 0) then
    match s.st.args.get Arguments.noMore with
    | .error e => .throw e s
    | .ok (arg, rest) =>
      match Optionals.find p.optionals arg with
      | none => .throw (ParserError.new ("Unknown optional argument: " ++ arg))
                  ⟨{ s.st with args := rest }, s.positionalIndex⟩
      | some r => (r.parse p { s.st with args := rest } arg).withIndex s.positionalIndex
  else
    if h : s.positionalIndex >= p.positionals.length then
      .throw (ParserError.new ("All positional arguments have been consumed: "
        ++ s.st.args.index 0)) s
    else
      ((p.positionals.get ⟨s.positionalIndex, Nat.lt_of_not_ge h⟩).parse p s.st
        "POSITIONAL").withIndex (s.positionalIndex + 1)

/-- The `while` loop of `parseArgs`, at most `fuel` tests of its condition;
`none` when the loop has not ended by then. -/
def Parser.loop {Val : Type} (p : Parser Val) : Nat → LoopState Val → Option (Flow (LoopState Val))
  | 0, _ => none
  | fuel + 1, s =>
    if s.st.args.empty == false then
      match p.dispatch s with
      | .ret s1 => Parser.loop p fuel s1
      | f => some f
    else some (.ret s)

/-- The body of the `try` block of `parseArgs`: the loop, then the test of the
cursor against the number of positionals. -/
def Parser.tryBlock {Val : Type} (p : Parser Val) (fuel : Nat) (s : LoopState Val) :
    Option (Flow (LoopState Val)) :=
  match p.loop fuel s with
  | some (.ret s1) =>
    if s1.positionalIndex != p.positionals.length then
      some (.throw (ParserError.new "too few arguments") s1)
    else some (.ret s1)
  | other => other

/-- How a call of `parseArgs` ends: it returns a status, or the process has
exited inside it. -/
inductive Outcome where
  | returned (status : ParseStatus)
  | exited (code : Int)
deriving DecidableEq, Repr

/-- All that a call of `parseArgs` leaves behind: how it ended, the parser (its
mutable `positionalIndex`), the caller's variables, and the text in the two
streams `out` and `error`. -/
structure Result (Val : Type) where
  outcome : Outcome
  parser : Parser Val
  vars : Nat → Val
  out : String
  error : String

/-- Number of loop tests that `parseArgs` needs at most: every pass removes a
token or advances the cursor. -/
def Parser.fuel {Val : Type} (p : Parser Val) (args : Arguments) : Nat :=
  args.size + (p.positionals.length - p.positionalIndex) + 1

/-- The end of `parseArgs` for each way the `try` block can end: `return
ParseComplete`, the `catch` block (usage to `running.o`, the message to
`error`, `return ParseFailed`), or the process has exited. -/
def Parser.catchBlock {Val : Type} (p : Parser Val) (app error : String)
    (f : Flow (LoopState Val)) : Result Val :=
  match f with
  | .ret s =>
    ⟨.returned .ParseComplete, { p with positionalIndex := s.positionalIndex },
      s.st.vars, s.st.r.o, error⟩
  | .throw e s =>
    ⟨.returned .ParseFailed, { p with positionalIndex := s.positionalIndex },
      s.st.vars, (p.writeUsage s.st.r).o, error ++ app ++ ": " ++ e.what ++ "\n" ++ "\n"⟩
  | .exit code s =>
    ⟨.exited code, { p with positionalIndex := s.positionalIndex }, s.st.vars, s.st.r.o, error⟩

/-- The state in which `parseArgs` enters its `try` block: the locals `args`
(`Arguments args(argc, argv)`) and `running` (`Running running(app, out)` with
`app = argv[0]`), the caller's variables, and the member `positionalIndex`. -/
def Parser.start {Val : Type} (p : Parser Val) (argv : List String) (vars : Nat → Val)
    (out : String) : LoopState Val :=
  ⟨⟨⟨argv.headD "", out⟩, Arguments.new argv, vars⟩, p.positionalIndex⟩

/-- The method `Parser::parseArgs(argc, argv, out, error)`; `argv` holds the
`argc` strings, `argv[0]` first, and `vars`, `out`, `error` are the caller's
variables and the two streams before the call.  The result is `none` when the
loop has not ended within its fuel. -/
def Parser.parseArgs {Val : Type} (p : Parser Val) (argv : List String) (vars : Nat → Val)
    (out error : String) : Option (Result Val) :=
  (p.tryBlock (p.fuel (Arguments.new argv)) (p.start argv vars out)).map
    (p.catchBlock (argv.headD "") error)

/-- The measure that every pass of the loop of `parseArgs` decreases: tokens
left plus positionals not yet invoked. -/
def Parser.measure {Val : Type} (p : Parser Val) (s : LoopState Val) : Nat :=
  s.st.args.size + (p.positionals.length - s.positionalIndex)

/-- The state after `k` passes through the loop of `parseArgs` from `s`, when
each of them is entered (the stream is not empty) and returns; `none` when the
loop ends or an error or exit happens before. -/
def Parser.passes {Val : Type} (p : Parser Val) : Nat → LoopState Val → Option (LoopState Val)
  | 0, s => some s
  | k + 1, s =>
    if s.st.args.empty == false then
      match p.dispatch s with
      | .ret s1 => Parser.passes p k s1
      | _ => none
    else none

/-- Whether an argument is no user callback: a typed argument, or the parser's
own help action. -/
def Argument.builtin {Val : Type} : Argument Val → Prop
  | .FunctionArgument (.function _) => False
  | _ => True

/-- A parser with no user callback registered. -/
def Parser.noUserCallback {Val : Type} (p : Parser Val) : Prop :=
  (∀ a ∈ p.positionals, a.builtin) ∧ ∀ kv ∈ p.optionals, kv.2.builtin

/-- The text `writeUsage` appends to `r.o` when the program name is `app`. -/
def Parser.usageText {Val : Type} (p : Parser Val) (app : String) : String :=
  "usage: " ++ app ++ usageList p.helpOptional ++ usageList p.helpPositional ++ "\n"

/-- The parsers a program can come to hold: the constructor gives one, every
registration (`add`, `addFunction` and both `operator()` go through `insert`)
gives one from one, and so does every call of `parseArgs`, which leaves the
parser with the cursor it ended at. -/
inductive Parser.Reachable {Val : Type} : Parser Val → Prop where
  | new (d aappname : String) : Parser.Reachable (Parser.new d aappname)
  | insert (p : Parser Val) (name : String) (arg : Argument Val) (extra : Extra) :
      Parser.Reachable p → Parser.Reachable (p.insert name arg extra)
  | parseArgs (p : Parser Val) (argv : List String) (vars : Nat → Val) (out error : String)
      (r : Result Val) :
      Parser.Reachable p → p.parseArgs argv vars out error = some r →
      Parser.Reachable r.parser

/-- The text that a call of `arg->parse` writes to `r.o` when `arg` is a user
callback; a typed argument writes nothing (the help action, which ends the
process, is not counted). -/
def Argument.written {Val : Type} (arg : Argument Val) (s : State Val) (argname : String) :
    String :=
  match arg with
  | .FunctionArgument (.function f) => (f s.r s.args s.vars argname).written
  | _ => ""

/-- The text that user callbacks write to `r.o` in one pass through the body of
the loop of `parseArgs`: that of the argument the pass invokes, if it invokes
one. -/
def Parser.passWritten {Val : Type} (p : Parser Val) (s : LoopState Val) : String :=
  if IsOptional (s.st.args.index 0) then
    match s.st.args.get Arguments.noMore with
    | .error _ => ""
    | .ok (arg, rest) =>
      match Optionals.find p.optionals arg with
      | none => ""
      | some r => r.written { s.st with args := rest } arg
  else
    if h : s.positionalIndex >= p.positionals.length then ""
    else (p.positionals.get ⟨s.positionalIndex, Nat.lt_of_not_ge h⟩).written s.st "POSITIONAL"

/-- The text that user callbacks write to `r.o` in the whole loop of `parseArgs`
run from `s`: the texts of its passes, in order. -/
def Parser.loopWritten {Val : Type} (p : Parser Val) : Nat → LoopState Val → String
  | 0, _ => ""
  | fuel + 1, s =>
    if s.st.args.empty == false then
      match p.dispatch s with
      | .ret s1 => p.passWritten s ++ Parser.loopWritten p fuel s1
      | _ => p.passWritten s
    else ""

/-! ## The program in `main` -/

/-- Addresses of the variables `compiler`, `i`, `op`, `strings` of `main`. -/
def addrCompiler : Nat := 0

/-- Address of the variable `i` of `main`. -/
def addrI : Nat := 1

/-- Address of the variable `op` of `main`. -/
def addrOp : Nat := 2

/-- Address of the variable `strings` of `main`. -/
def addrStrings : Nat := 3

/-- The variables of `main` before the parser runs; `i` is not initialised in the
source and holds `i0`. -/
def mainVars (i0 : Int) : Nat → Value :=
  fun a => if a = addrCompiler then .string ""
    else if a = addrI then .int i0
    else if a = addrOp then .int 2
    else .strings []

/-- The parser built in `main`. -/
def mainParser : Parser Value :=
  ((((Parser.new "description" "").call extractStringValue "compiler" addrCompiler Extra.new
        Assign (StandardConverter extractStringValue)).call
      extractIntValue "int" addrI Extra.new Assign (StandardConverter extractIntValue)).call
      extractIntValue "-op" addrOp Extra.new Assign (StandardConverter extractIntValue)).add
    "-strings" addrStrings ((Extra.new.count (Count.ofType .MoreThanOne)).metavar "string")
    PushBackVector (StandardConverter extractStringValue)

/-! ## Lemmas on the token stream -/

theorem Flow.withIndex_state {Val : Type} (f : Flow (State Val)) (i : Nat) :
    (f.withIndex i).state = ⟨f.state, i⟩ := by
  cases f <;> rfl

theorem ArgumentT.take_nil {Val : Type} (a : ArgumentT Val) (s : State Val) (error : String)
    (h : s.args.args = []) : a.take s error = .throw (ParserError.new error) s := by
  simp [ArgumentT.take, Arguments.get, h]

theorem ArgumentT.take_error {Val : Type} (a : ArgumentT Val) (s : State Val) (error : String)
    (tok : String) (rest : List String) (e : ParserError) (h : s.args.args = tok :: rest)
    (hc : a.converter tok = .error e) :
    a.take s error = .throw e { s with args := ⟨rest⟩ } := by
  simp [ArgumentT.take, Arguments.get, h, hc]

theorem ArgumentT.take_ok {Val : Type} (a : ArgumentT Val) (s : State Val) (error : String)
    (tok : String) (rest : List String) (v : Val) (h : s.args.args = tok :: rest)
    (hc : a.converter tok = .ok v) :
    a.take s error =
      .ret ⟨s.r, ⟨rest⟩, assignVar s.vars a.target (a.combine (s.vars a.target) v)⟩ := by
  simp [ArgumentT.take, Arguments.get, h, hc]

theorem ArgumentT.take_suffix {Val : Type} (a : ArgumentT Val) (s : State Val) (error : String) :
    ∃ consumed, s.args.args = consumed ++ (a.take s error).state.args.args := by
  cases h : s.args.args with
  | nil => exact ⟨[], by simp [a.take_nil s error h, Flow.state, h]⟩
  | cons tok rest =>
    cases hc : a.converter tok with
    | error e => exact ⟨[tok], by simp [a.take_error s error tok rest e h hc, Flow.state]⟩
    | ok v => exact ⟨[tok], by simp [a.take_ok s error tok rest v h hc, Flow.state]⟩

theorem ArgumentT.constLoop_suffix {Val : Type} (a : ArgumentT Val) (argname : String) :
    ∀ (k i : Nat) (s : State Val),
      ∃ consumed, s.args.args = consumed ++ (a.constLoop argname k i s).state.args.args := by
  intro k
  induction k with
  | zero => intro i s; exact ⟨[], by simp [ArgumentT.constLoop, Flow.state]⟩
  | succ k ih =>
    intro i s
    obtain ⟨c1, h1⟩ := a.take_suffix s (a.constMessage argname i)
    unfold ArgumentT.constLoop
    cases ht : a.take s (a.constMessage argname i) with
    | ret s1 =>
      obtain ⟨c2, h2⟩ := ih (i + 1) s1
      rw [ht] at h1
      simp only [Flow.state] at h1
      exact ⟨c1 ++ c2, by simp only [h1, h2, List.append_assoc]⟩
    | throw e s1 => rw [ht] at h1; exact ⟨c1, h1⟩
    | exit c s1 => rw [ht] at h1; exact ⟨c1, h1⟩

theorem ArgumentT.whileLoop_suffix {Val : Type} (a : ArgumentT Val) (r : Running) :
    ∀ (toks : List String) (vars : Nat → Val),
      ∃ consumed, toks = consumed ++ (a.whileLoop r toks vars).state.args.args
        ∧ ∀ t ∈ consumed, IsOptional t = false := by
  intro toks
  induction toks with
  | nil => intro vars; exact ⟨[], by simp [ArgumentT.whileLoop, Flow.state]⟩
  | cons tok rest ih =>
    intro vars
    unfold ArgumentT.whileLoop
    cases ho : IsOptional tok with
    | true => exact ⟨[], by simp [Flow.state]⟩
    | false =>
      cases hc : a.converter tok with
      | error e => exact ⟨[tok], by simp [Flow.state, ho]⟩
      | ok v =>
        obtain ⟨c, h1, h2⟩ := ih (assignVar vars a.target (a.combine (vars a.target) v))
        refine ⟨tok :: c, ?_, ?_⟩
        · simpa using h1
        · intro t ht
          rcases List.mem_cons.mp ht with rfl | ht
          · exact ho
          · exact h2 t ht

theorem ArgumentT.parse_suffix {Val : Type} (a : ArgumentT Val) (s : State Val)
    (argname : String) :
    ∃ consumed, s.args.args = consumed ++ (a.parse s argname).state.args.args := by
  unfold ArgumentT.parse
  cases a.count.type with
  | Const => exact a.constLoop_suffix argname _ _ s
  | MoreThanOne =>
    obtain ⟨c1, h1⟩ := a.take_suffix s ("argument " ++ argname ++ ": expected atleast one argument")
    cases ht : a.take s ("argument " ++ argname ++ ": expected atleast one argument") with
    | ret s1 =>
      obtain ⟨c2, h2, _⟩ := a.whileLoop_suffix s1.r s1.args.args s1.vars
      rw [ht] at h1
      simp only [Flow.state] at h1
      exact ⟨c1 ++ c2, by rw [h1, List.append_assoc, ← h2]⟩
    | throw e s1 => rw [ht] at h1; exact ⟨c1, h1⟩
    | exit c s1 => rw [ht] at h1; exact ⟨c1, h1⟩
  | ZeroOrMore =>
    obtain ⟨c, h, _⟩ := a.whileLoop_suffix s.r s.args.args s.vars
    exact ⟨c, h⟩
  | Optional =>
    by_cases he : s.args.empty = true
    · exact ⟨[], by simp [he, Flow.state]⟩
    · by_cases ho : IsOptional (s.args.index 0) = true
      · exact ⟨[], by simp [he, ho, Flow.state]⟩
      · simpa [he, ho] using a.take_suffix s "internal error"
  | None => exact ⟨[], by simp [Flow.state]⟩

theorem Argument.parse_any_suffix {Val : Type} (p : Parser Val) (arg : Argument Val) (s : State Val)
    (argname : String) :
    ∃ consumed, s.args.args = consumed ++ (arg.parse p s argname).state.args.args := by
  cases arg with
  | ArgumentT a => exact a.parse_suffix s argname
  | FunctionArgument f =>
    cases f with
    | CallHelp => exact ⟨[], by simp [Argument.parse, Flow.state]⟩
    | function f =>
      refine ⟨s.args.args.take (f s.r s.args s.vars argname).taken, ?_⟩
      simp only [Argument.parse, CallbackEffect.apply]
      cases (f s.r s.args s.vars argname).ending <;> simp [Flow.state]

theorem Argument.parse_size_le {Val : Type} (p : Parser Val) (arg : Argument Val) (s : State Val)
    (argname : String) : (arg.parse p s argname).state.args.size ≤ s.args.size := by
  obtain ⟨c, h⟩ := arg.parse_any_suffix p s argname
  simp only [Arguments.size]
  rw [h, List.length_append]
  omega

/-! ## Lemmas on the dispatch loop -/

theorem Parser.dispatch_optional {Val : Type} (p : Parser Val) (s : LoopState Val)
    (tok : String) (rest : List String) (h : s.st.args.args = tok :: rest)
    (ho : IsOptional tok = true) :
    p.dispatch s =
      match Optionals.find p.optionals tok with
      | none => .throw (ParserError.new ("Unknown optional argument: " ++ tok))
                  ⟨⟨s.st.r, ⟨rest⟩, s.st.vars⟩, s.positionalIndex⟩
      | some r => (r.parse p ⟨s.st.r, ⟨rest⟩, s.st.vars⟩ tok).withIndex s.positionalIndex := by
  simp [Parser.dispatch, Arguments.index, Arguments.get, h, ho]

theorem Parser.dispatch_positional {Val : Type} (p : Parser Val) (s : LoopState Val)
    (tok : String) (rest : List String) (h : s.st.args.args = tok :: rest)
    (ho : IsOptional tok = false) (hi : s.positionalIndex < p.positionals.length) :
    p.dispatch s =
      ((p.positionals.get ⟨s.positionalIndex, hi⟩).parse p s.st "POSITIONAL").withIndex
        (s.positionalIndex + 1) := by
  simp [Parser.dispatch, Arguments.index, h, ho, Nat.not_le.mpr hi]

theorem Parser.dispatch_consumed {Val : Type} (p : Parser Val) (s : LoopState Val)
    (tok : String) (rest : List String) (h : s.st.args.args = tok :: rest)
    (ho : IsOptional tok = false) (hi : p.positionals.length ≤ s.positionalIndex) :
    p.dispatch s =
      .throw (ParserError.new ("All positional arguments have been consumed: " ++ tok)) s := by
  simp [Parser.dispatch, Arguments.index, h, ho, hi]

theorem Parser.dispatch_measure {Val : Type} (p : Parser Val) (s : LoopState Val)
    (hne : s.st.args.empty = false) :
    p.measure (p.dispatch s).state < p.measure s
      ∨ ∃ e, p.dispatch s = .throw e s := by
  cases h : s.st.args.args with
  | nil => simp [Arguments.empty, h] at hne
  | cons tok rest =>
    cases ho : IsOptional tok with
    | true =>
      left
      rw [p.dispatch_optional s tok rest h ho]
      cases Optionals.find p.optionals tok with
      | none => simp [Flow.state, Parser.measure, Arguments.size, h]
      | some r =>
        have hle := r.parse_size_le p ⟨s.st.r, ⟨rest⟩, s.st.vars⟩ tok
        simp only [Flow.withIndex_state, Parser.measure, Arguments.size, h,
          List.length_cons] at hle ⊢
        omega
    | false =>
      by_cases hi : s.positionalIndex < p.positionals.length
      · left
        rw [p.dispatch_positional s tok rest h ho hi]
        have hle := (p.positionals.get ⟨s.positionalIndex, hi⟩).parse_size_le p s.st "POSITIONAL"
        simp only [Flow.withIndex_state, Parser.measure] at hle ⊢
        omega
      · right
        exact ⟨_, p.dispatch_consumed s tok rest h ho (Nat.le_of_not_lt hi)⟩

theorem Parser.dispatch_ret_measure {Val : Type} (p : Parser Val) (s s1 : LoopState Val)
    (hne : s.st.args.empty = false) (h : p.dispatch s = .ret s1) :
    p.measure s1 < p.measure s := by
  rcases p.dispatch_measure s hne with hlt | ⟨e, he⟩
  · rw [h] at hlt; exact hlt
  · rw [h] at he; cases he

theorem Parser.loop_succ {Val : Type} (p : Parser Val) (fuel : Nat) (s : LoopState Val) :
    p.loop (fuel + 1) s =
      if s.st.args.empty == false then
        match p.dispatch s with
        | .ret s1 => p.loop fuel s1
        | f => some f
      else some (.ret s) := rfl

theorem Parser.loop_fuel {Val : Type} (p : Parser Val) :
    ∀ (f1 f2 : Nat) (s : LoopState Val), p.measure s < f1 → p.measure s < f2 →
      p.loop f1 s = p.loop f2 s ∧ ∃ r, p.loop f1 s = some r := by
  intro f1
  induction f1 with
  | zero => intro f2 s h1; omega
  | succ n ih =>
    intro f2 s h1 h2
    cases f2 with
    | zero => omega
    | succ m =>
      unfold Parser.loop
      cases hne : s.st.args.empty with
      | true => simp
      | false =>
        cases hd : p.dispatch s with
        | ret s1 =>
          have hlt := p.dispatch_ret_measure s s1 hne hd
          simpa using ih m s1 (by omega) (by omega)
        | throw e s1 => simp
        | exit c s1 => simp

theorem Parser.loop_passes {Val : Type} (p : Parser Val) :
    ∀ (k f0 f : Nat) (s0 s : LoopState Val), p.passes k s0 = some s →
      p.measure s0 < f0 → p.measure s < f → p.loop f0 s0 = p.loop f s := by
  intro k
  induction k with
  | zero =>
    intro f0 f s0 s h h0 h1
    simp only [Parser.passes, Option.some.injEq] at h
    subst h
    exact (p.loop_fuel f0 f s0 h0 h1).1
  | succ k ih =>
    intro f0 f s0 s h h0 h1
    cases f0 with
    | zero => omega
    | succ n =>
      unfold Parser.passes at h
      rw [p.loop_succ n s0]
      cases hne : s0.st.args.empty with
      | true => simp [hne] at h
      | false =>
        cases hd : p.dispatch s0 with
        | ret s1 =>
          have hlt := p.dispatch_ret_measure s0 s1 hne hd
          simp only [hne, hd] at h
          simpa using ih n f s1 s (by simpa using h) (by omega) h1
        | throw e s1 => simp [hne, hd] at h
        | exit c s1 => simp [hne, hd] at h

theorem Parser.parseArgs_eq {Val : Type} (p : Parser Val) (argv : List String)
    (vars : Nat → Val) (out error : String) (f : Nat)
    (hf : p.measure (p.start argv vars out) < f) :
    p.parseArgs argv vars out error =
      (p.tryBlock f (p.start argv vars out)).map (p.catchBlock (argv.headD "") error) := by
  have h := (p.loop_fuel (p.fuel (Arguments.new argv)) f (p.start argv vars out)
    (by simp [Parser.fuel, Parser.measure, Parser.start]) hf).1
  simp only [Parser.parseArgs, Parser.tryBlock, h]

theorem Parser.parseArgs_total {Val : Type} (p : Parser Val) (argv : List String)
    (vars : Nat → Val) (out error : String) :
    ∃ r, p.parseArgs argv vars out error = some r := by
  obtain ⟨fl, hfl⟩ := (p.loop_fuel (p.measure (p.start argv vars out) + 1)
    (p.measure (p.start argv vars out) + 1) (p.start argv vars out) (by omega) (by omega)).2
  rw [p.parseArgs_eq argv vars out error _ (Nat.lt_succ_self _)]
  simp only [Parser.tryBlock, hfl]
  cases fl with
  | ret s1 =>
    by_cases hc : (s1.positionalIndex != p.positionals.length) = true <;> simp [hc]
  | throw e s1 => simp
  | exit c s1 => simp

/-! ## Lemmas on the `Const` loop -/

theorem assignVar_same {Val : Type} (vars : Nat → Val) (addr : Nat) (v : Val) :
    assignVar vars addr v addr = v := by
  simp [assignVar]

theorem assignVar_other {Val : Type} (vars : Nat → Val) (addr x : Nat) (v : Val)
    (h : x ≠ addr) : assignVar vars addr v x = vars x := by
  simp [assignVar, h]

theorem foldl_combine_target {Val : Type} (t : Nat) (c : Val → Val → Val) :
    ∀ (vals : List Val) (vars : Nat → Val),
      (vals.foldl (fun vs v => assignVar vs t (c (vs t) v)) vars) t = vals.foldl c (vars t) := by
  intro vals
  induction vals with
  | nil => intro vars; rfl
  | cons v vs ih => intro vars; simp [List.foldl_cons, ih, assignVar_same]

theorem foldl_combine_other {Val : Type} (t x : Nat) (c : Val → Val → Val) (h : x ≠ t) :
    ∀ (vals : List Val) (vars : Nat → Val),
      (vals.foldl (fun vs v => assignVar vs t (c (vs t) v)) vars) x = vars x := by
  intro vals
  induction vals with
  | nil => intro vars; rfl
  | cons v vs ih => intro vars; simp [List.foldl_cons, ih, assignVar_other _ _ _ _ h]

theorem ArgumentT.constLoop_ok {Val : Type} (a : ArgumentT Val) (argname : String)
    (r : Running) (rest : List String) :
    ∀ (toks : List String) (vals : List Val) (k i : Nat) (vars : Nat → Val),
      toks.length = k → toks.map a.converter = vals.map Except.ok →
      a.constLoop argname k i ⟨r, ⟨toks ++ rest⟩, vars⟩ =
        .ret ⟨r, ⟨rest⟩,
          vals.foldl (fun vs v => assignVar vs a.target (a.combine (vs a.target) v)) vars⟩ := by
  intro toks
  induction toks with
  | nil =>
    intro vals k i vars hk hc
    cases vals with
    | nil => subst hk; rfl
    | cons v vs => simp at hc
  | cons tok toks ih =>
    intro vals k i vars hk hc
    cases vals with
    | nil => simp at hc
    | cons v vs =>
      simp only [List.map_cons, List.cons.injEq] at hc
      subst hk
      simp only [List.length_cons, ArgumentT.constLoop]
      rw [a.take_ok ⟨r, ⟨tok :: toks ++ rest⟩, vars⟩ _ tok (toks ++ rest) v rfl hc.1]
      exact ih vs toks.length (i + 1) _ rfl hc.2

theorem ArgumentT.parse_const {Val : Type} (a : ArgumentT Val) (n : Nat) (s : State Val)
    (argname : String) (hcount : a.count = Count.ofSize n) :
    a.parse s argname = a.constLoop argname n 0 s := by
  simp [ArgumentT.parse, hcount, Count.ofSize, Count.type, Count.count]

theorem drop_eq_cons_get {α : Type} (l : List α) (i : Nat) (x : α) (t : List α)
    (h : l.drop i = x :: t) :
    ∃ hi : i < l.length, l.get ⟨i, hi⟩ = x ∧ l.drop (i + 1) = t := by
  have hi : i < l.length := by
    by_contra hc
    rw [List.drop_eq_nil_of_le (Nat.le_of_not_lt hc)] at h
    cases h
  rw [List.drop_eq_getElem_cons hi] at h
  simp only [List.cons.injEq] at h
  exact ⟨hi, h.1, h.2⟩

theorem Parser.loop_exact_one {Val : Type} (p : Parser Val) (r : Running) :
    ∀ (items : List (ArgumentT Val × String × Val)) (i : Nat) (vars : Nat → Val) (fuel : Nat),
      p.positionals.drop i = items.map (fun x => Argument.ArgumentT x.1) →
      (∀ x ∈ items, x.1.count = Count.ofSize 1 ∧ IsOptional x.2.1 = false
        ∧ x.1.converter x.2.1 = .ok x.2.2) →
      items.length < fuel →
      p.loop fuel ⟨⟨r, ⟨items.map (fun x => x.2.1)⟩, vars⟩, i⟩ =
        some (.ret ⟨⟨r, ⟨[]⟩, items.foldl
          (fun vs x => assignVar vs x.1.target (x.1.combine (vs x.1.target) x.2.2)) vars⟩,
          i + items.length⟩) := by
  intro items
  induction items with
  | nil =>
    intro i vars fuel _ _ hf
    cases fuel with
    | zero => omega
    | succ n => simp [Parser.loop_succ, Arguments.empty]
  | cons x xs ih =>
    intro i vars fuel hdrop hx hf
    cases fuel with
    | zero => omega
    | succ n =>
      obtain ⟨hi, hget, hdrop1⟩ := drop_eq_cons_get _ _ _ _ hdrop
      obtain ⟨hcount, hopt, hconv⟩ := hx x (List.mem_cons_self _ _)
      have hd : p.dispatch ⟨⟨r, ⟨(x :: xs).map (fun x => x.2.1)⟩, vars⟩, i⟩ =
          .ret ⟨⟨r, ⟨xs.map (fun x => x.2.1)⟩,
            assignVar vars x.1.target (x.1.combine (vars x.1.target) x.2.2)⟩, i + 1⟩ := by
        rw [p.dispatch_positional _ x.2.1 (xs.map (fun x => x.2.1)) rfl hopt hi, hget]
        simp only [Argument.parse]
        rw [x.1.parse_const 1 _ _ hcount]
        have h1 := x.1.constLoop_ok "POSITIONAL" r (xs.map (fun x => x.2.1)) [x.2.1] [x.2.2]
          1 0 vars rfl (by simp [hconv])
        simp only [List.map_cons, List.singleton_append, List.foldl_cons, List.foldl_nil] at h1 ⊢
        rw [h1]
        rfl
      rw [p.loop_succ, hd]
      simp only [Arguments.empty, List.map_cons, List.isEmpty_cons, beq_self_eq_true, if_true]
      rw [ih (i + 1) _ n hdrop1 (fun y hy => hx y (List.mem_cons_of_mem _ hy))
        (by simp only [List.length_cons] at hf; omega)]
      simp only [List.foldl_cons, List.length_cons]
      rw [show i + 1 + xs.length = i + (xs.length + 1) by omega]

theorem foldl_assign_other {Val : Type} (addr : Nat) :
    ∀ (items : List (ArgumentT Val × String × Val)) (vars : Nat → Val),
      addr ∉ items.map (fun x => x.1.target) →
      (items.foldl (fun vs x => assignVar vs x.1.target (x.1.combine (vs x.1.target) x.2.2))
        vars) addr = vars addr := by
  intro items
  induction items with
  | nil => intro vars _; rfl
  | cons x xs ih =>
    intro vars h
    simp only [List.map_cons, List.mem_cons, not_or] at h
    rw [List.foldl_cons, ih _ h.2, assignVar_other _ _ _ _ h.1]

theorem foldl_assign_target {Val : Type} :
    ∀ (items : List (ArgumentT Val × String × Val)) (vars : Nat → Val),
      (items.map (fun x => x.1.target)).Nodup → (∀ x ∈ items, x.1.combine = Assign) →
      ∀ x ∈ items, (items.foldl
        (fun vs x => assignVar vs x.1.target (x.1.combine (vs x.1.target) x.2.2)) vars)
          x.1.target = x.2.2 := by
  intro items
  induction items with
  | nil => intro vars _ _ x hx; cases hx
  | cons y ys ih =>
    intro vars hnd hassign x hx
    simp only [List.map_cons, List.nodup_cons] at hnd
    rw [List.foldl_cons]
    rcases List.mem_cons.mp hx with rfl | hx
    · rw [foldl_assign_other _ ys _ hnd.1, assignVar_same, hassign x (List.mem_cons_self _ _)]
      rfl
    · exact ih _ hnd.2 (fun z hz => hassign z (List.mem_cons_of_mem _ hz)) x hx

theorem Parser.parseArgs_passes {Val : Type} (p : Parser Val) (argv : List String)
    (vars : Nat → Val) (out error : String) (k : Nat) (s : LoopState Val)
    (h : p.passes k (p.start argv vars out) = some s) :
    p.parseArgs argv vars out error =
      (p.tryBlock (p.measure s + 1) s).map (p.catchBlock (argv.headD "") error) := by
  rw [p.parseArgs_eq argv vars out error _ (Nat.lt_succ_self _)]
  simp only [Parser.tryBlock]
  rw [p.loop_passes k _ (p.measure s + 1) _ s h (Nat.lt_succ_self _) (Nat.lt_succ_self _)]

theorem Parser.tryBlock_empty {Val : Type} (p : Parser Val) (fuel : Nat) (s : LoopState Val)
    (hend : s.st.args.empty = true) :
    p.tryBlock (fuel + 1) s =
      if s.positionalIndex != p.positionals.length then
        some (.throw (ParserError.new "too few arguments") s)
      else some (.ret s) := by
  simp [Parser.tryBlock, Parser.loop_succ, hend]

theorem Parser.tryBlock_throw {Val : Type} (p : Parser Val) (fuel : Nat) (s s1 : LoopState Val)
    (e : ParserError) (hne : s.st.args.empty = false) (hd : p.dispatch s = .throw e s1) :
    p.tryBlock (fuel + 1) s = some (.throw e s1) := by
  simp [Parser.tryBlock, Parser.loop_succ, hne, hd]

/-! ## Lemmas on the arities that look ahead -/

theorem ArgumentT.take_consumed {Val : Type} (a : ArgumentT Val) (s : State Val)
    (error : String) :
    ∃ consumed, s.args.args = consumed ++ (a.take s error).state.args.args
      ∧ consumed.length ≤ 1 ∧ ∀ t ∈ consumed, t = s.args.index 0 := by
  cases h : s.args.args with
  | nil => exact ⟨[], by simp [a.take_nil s error h, Flow.state, h]⟩
  | cons tok rest =>
    cases hc : a.converter tok with
    | error e =>
      exact ⟨[tok], by simp [a.take_error s error tok rest e h hc, Flow.state, Arguments.index, h]⟩
    | ok v =>
      exact ⟨[tok], by simp [a.take_ok s error tok rest v h hc, Flow.state, Arguments.index, h]⟩

theorem ArgumentT.take_ret {Val : Type} (a : ArgumentT Val) (s s1 : State Val)
    (error : String) (h : a.take s error = .ret s1) :
    ∃ tok, s.args.args = tok :: s1.args.args := by
  cases hs : s.args.args with
  | nil => rw [a.take_nil s error hs] at h; cases h
  | cons tok rest =>
    cases hc : a.converter tok with
    | error e => rw [a.take_error s error tok rest e hs hc] at h; cases h
    | ok v =>
      rw [a.take_ok s error tok rest v hs hc] at h
      cases h
      exact ⟨tok, rfl⟩

theorem ArgumentT.take_converter {Val : Type} (a : ArgumentT Val) (s : State Val)
    (error : String) (conv : String → Except ParserError Val)
    (h : conv (s.args.index 0) = a.converter (s.args.index 0)) :
    ({ a with converter := conv } : ArgumentT Val).take s error = a.take s error := by
  cases hs : s.args.args with
  | nil => rw [ArgumentT.take_nil _ s error hs, ArgumentT.take_nil _ s error hs]
  | cons tok rest =>
    simp only [Arguments.index, hs, List.getD_cons_zero] at h
    simp [ArgumentT.take, Arguments.get, hs, h]

theorem ArgumentT.whileLoop_converter {Val : Type} (a : ArgumentT Val) (r : Running)
    (conv : String → Except ParserError Val)
    (h : ∀ t, IsOptional t = false → conv t = a.converter t) :
    ∀ (toks : List String) (vars : Nat → Val),
      ({ a with converter := conv } : ArgumentT Val).whileLoop r toks vars
        = a.whileLoop r toks vars := by
  intro toks
  induction toks with
  | nil => intro vars; rfl
  | cons tok rest ih =>
    intro vars
    unfold ArgumentT.whileLoop
    cases ho : IsOptional tok with
    | true => rfl
    | false =>
      simp only [h tok ho, beq_self_eq_true, if_true]
      cases a.converter tok with
      | error e => rfl
      | ok v => exact ih _

/-! ## Lemmas on what a typed argument leaves alone -/

theorem ArgumentT.take_frame {Val : Type} (a : ArgumentT Val) (s : State Val) (error : String) :
    (a.take s error).state.r = s.r
      ∧ ∀ x, x ≠ a.target → (a.take s error).state.vars x = s.vars x := by
  cases h : s.args.args with
  | nil => simp [a.take_nil s error h, Flow.state]
  | cons tok rest =>
    cases hc : a.converter tok with
    | error e => simp [a.take_error s error tok rest e h hc, Flow.state]
    | ok v =>
      simp only [a.take_ok s error tok rest v h hc, Flow.state, true_and]
      intro x hx
      exact assignVar_other _ _ _ _ hx

theorem ArgumentT.constLoop_frame {Val : Type} (a : ArgumentT Val) (argname : String) :
    ∀ (k i : Nat) (s : State Val),
      (a.constLoop argname k i s).state.r = s.r
        ∧ ∀ x, x ≠ a.target → (a.constLoop argname k i s).state.vars x = s.vars x := by
  intro k
  induction k with
  | zero => intro i s; simp [ArgumentT.constLoop, Flow.state]
  | succ k ih =>
    intro i s
    have h1 := a.take_frame s (a.constMessage argname i)
    unfold ArgumentT.constLoop
    cases ht : a.take s (a.constMessage argname i) with
    | ret s1 =>
      rw [ht] at h1
      simp only [Flow.state] at h1
      obtain ⟨h2, h3⟩ := ih (i + 1) s1
      exact ⟨h2.trans h1.1, fun x hx => (h3 x hx).trans (h1.2 x hx)⟩
    | throw e s1 => rw [ht] at h1; exact h1
    | exit c s1 => rw [ht] at h1; exact h1

theorem ArgumentT.whileLoop_frame {Val : Type} (a : ArgumentT Val) (r : Running) :
    ∀ (toks : List String) (vars : Nat → Val),
      (a.whileLoop r toks vars).state.r = r
        ∧ ∀ x, x ≠ a.target → (a.whileLoop r toks vars).state.vars x = vars x := by
  intro toks
  induction toks with
  | nil => intro vars; simp [ArgumentT.whileLoop, Flow.state]
  | cons tok rest ih =>
    intro vars
    unfold ArgumentT.whileLoop
    cases ho : IsOptional tok with
    | true => simp [Flow.state]
    | false =>
      cases hc : a.converter tok with
      | error e => simp [Flow.state]
      | ok v =>
        obtain ⟨h2, h3⟩ := ih (assignVar vars a.target (a.combine (vars a.target) v))
        simp only [beq_self_eq_true, if_true]
        exact ⟨h2, fun x hx => (h3 x hx).trans (assignVar_other _ _ _ _ hx)⟩

theorem ArgumentT.parse_frame {Val : Type} (a : ArgumentT Val) (s : State Val)
    (argname : String) :
    (a.parse s argname).state.r = s.r
      ∧ ∀ x, x ≠ a.target → (a.parse s argname).state.vars x = s.vars x := by
  unfold ArgumentT.parse
  cases a.count.type with
  | Const => exact a.constLoop_frame argname _ _ s
  | MoreThanOne =>
    have h1 := a.take_frame s ("argument " ++ argname ++ ": expected atleast one argument")
    cases ht : a.take s ("argument " ++ argname ++ ": expected atleast one argument") with
    | ret s1 =>
      rw [ht] at h1
      simp only [Flow.state] at h1
      obtain ⟨h2, h3⟩ := a.whileLoop_frame s1.r s1.args.args s1.vars
      exact ⟨h2.trans h1.1, fun x hx => (h3 x hx).trans (h1.2 x hx)⟩
    | throw e s1 => rw [ht] at h1; exact h1
    | exit c s1 => rw [ht] at h1; exact h1
  | ZeroOrMore => exact a.whileLoop_frame s.r s.args.args s.vars
  | Optional =>
    by_cases he : s.args.empty = true
    · simp [he, Flow.state]
    · by_cases ho : IsOptional (s.args.index 0) = true
      · simp [he, ho, Flow.state]
      · simpa [he, ho] using a.take_frame s "internal error"
  | None => simp [Flow.state]

theorem ArgumentT.parse_no_exit {Val : Type} (a : ArgumentT Val) (s s1 : State Val)
    (argname : String) (code : Int) : a.parse s argname ≠ .exit code s1 := by
  have htake : ∀ (s : State Val) (error : String), a.take s error ≠ .exit code s1 := by
    intro s error
    cases h : s.args.args with
    | nil => simp [a.take_nil s error h]
    | cons tok rest =>
      cases hc : a.converter tok with
      | error e => simp [a.take_error s error tok rest e h hc]
      | ok v => simp [a.take_ok s error tok rest v h hc]
  have hwhile : ∀ (r : Running) (toks : List String) (vars : Nat → Val),
      a.whileLoop r toks vars ≠ .exit code s1 := by
    intro r toks
    induction toks with
    | nil => intro vars; simp [ArgumentT.whileLoop]
    | cons tok rest ih =>
      intro vars
      unfold ArgumentT.whileLoop
      cases ho : IsOptional tok with
      | true => simp
      | false =>
        cases hc : a.converter tok with
        | error e => simp
        | ok v => simpa using ih _
  have hconst : ∀ (k i : Nat) (s : State Val), a.constLoop argname k i s ≠ .exit code s1 := by
    intro k
    induction k with
    | zero => intro i s; simp [ArgumentT.constLoop]
    | succ k ih =>
      intro i s
      unfold ArgumentT.constLoop
      cases ht : a.take s (a.constMessage argname i) with
      | ret s2 => exact ih _ _
      | throw e s2 => simp
      | exit c s2 =>
        intro heq
        simp only [Flow.exit.injEq] at heq
        exact htake s _ (by rw [ht, heq.1, heq.2])
  unfold ArgumentT.parse
  cases a.count.type with
  | Const => exact hconst _ _ s
  | MoreThanOne =>
    cases ht : a.take s ("argument " ++ argname ++ ": expected atleast one argument") with
    | ret s2 => exact hwhile _ _ _
    | throw e s2 => simp
    | exit c s2 =>
      intro heq
      simp only [Flow.exit.injEq] at heq
      exact htake s _ (by rw [ht, heq.1, heq.2])
  | ZeroOrMore => exact hwhile _ _ _
  | Optional =>
    by_cases he : s.args.empty = true
    · simp [he]
    · by_cases ho : IsOptional (s.args.index 0) = true
      · simp [he, ho]
      · simpa [he, ho] using htake s "internal error"
  | None => simp

/-! ## Lemmas on registration -/

theorem Optionals.find_append {Val : Type} (m : Optionals Val) (name k : String)
    (arg : Argument Val) :
    Optionals.find (m ++ [(k, arg)]) name =
      match Optionals.find m name with
      | some v => some v
      | none => if k = name then some arg else none := by
  induction m with
  | nil => simp [Optionals.find]
  | cons kv rest ih =>
    obtain ⟨k1, v1⟩ := kv
    simp only [List.cons_append, Optionals.find]
    by_cases h : k1 = name
    · simp [h]
    · simp [h, ih]

theorem Optionals.find_insert_new {Val : Type} (m : Optionals Val) (name : String)
    (arg : Argument Val) (h : Optionals.find m name = none) :
    Optionals.find (Optionals.insert m name arg) name = some arg := by
  simp [Optionals.insert, h, Optionals.find_append]

theorem Optionals.insert_present {Val : Type} (m : Optionals Val) (name : String)
    (arg old : Argument Val) (h : Optionals.find m name = some old) :
    Optionals.insert m name arg = m := by
  simp [Optionals.insert, h]

/-! ## Lemmas on the two streams -/

theorem Optionals.find_mem {Val : Type} (m : Optionals Val) (name : String)
    (arg : Argument Val) (h : Optionals.find m name = some arg) :
    ∃ kv ∈ m, kv.2 = arg := by
  induction m with
  | nil => simp [Optionals.find] at h
  | cons kv rest ih =>
    obtain ⟨k1, v1⟩ := kv
    simp only [Optionals.find] at h
    by_cases hk : k1 = name
    · simp only [hk, if_true, Option.some.injEq] at h
      exact ⟨(k1, v1), List.mem_cons_self _ _, h⟩
    · simp only [hk, if_false] at h
      obtain ⟨kv, hmem, hkv⟩ := ih h
      exact ⟨kv, List.mem_cons_of_mem _ hmem, hkv⟩

theorem Parser.writeUsage_o {Val : Type} (p : Parser Val) (r : Running) :
    (p.writeUsage r).o = r.o ++ p.usageText r.app := by
  simp [Parser.writeUsage, Parser.usageText, String.append_assoc]

theorem Parser.writeHelp_o {Val : Type} (p : Parser Val) (r : Running) :
    ∃ w, (p.writeHelp r).o = r.o ++ w := by
  simp only [Parser.writeHelp, Parser.writeUsage_o]
  split_ifs <;> simp only [String.append_assoc] <;> exact ⟨_, rfl⟩

theorem Argument.parse_running {Val : Type} (p : Parser Val) (arg : Argument Val)
    (s : State Val) (argname : String) :
    (arg.parse p s argname).state.r.app = s.r.app
      ∧ ∃ w, (arg.parse p s argname).state.r.o = s.r.o ++ w
        ∧ (arg.builtin → (∀ c s1, arg.parse p s argname ≠ .exit c s1) → w = "") := by
  cases arg with
  | ArgumentT a =>
    have h := (a.parse_frame s argname).1
    simp only [Argument.parse, h, true_and]
    exact ⟨"", by simp, fun _ _ => rfl⟩
  | FunctionArgument f =>
    cases f with
    | CallHelp =>
      obtain ⟨w, hw⟩ := p.writeHelp_o s.r
      exact ⟨rfl, w, hw, fun _ hne => absurd rfl (hne _ _)⟩
    | function f =>
      simp only [Argument.parse, CallbackEffect.apply]
      cases (f s.r s.args s.vars argname).ending <;>
        exact ⟨rfl, _, rfl, fun hb => absurd hb (by simp [Argument.builtin])⟩

theorem Parser.dispatch_running {Val : Type} (p : Parser Val) (s : LoopState Val) :
    (p.dispatch s).state.st.r.app = s.st.r.app
      ∧ ∃ w, (p.dispatch s).state.st.r.o = s.st.r.o ++ w
        ∧ (p.noUserCallback → (∀ c s1, p.dispatch s ≠ .exit c s1) → w = "") := by
  have hlift : ∀ (arg : Argument Val) (st : State Val) (argname : String) (i : Nat),
      arg.builtin → st.r = s.st.r →
      ((arg.parse p st argname).withIndex i).state.st.r.app = s.st.r.app
        ∧ ∃ w, ((arg.parse p st argname).withIndex i).state.st.r.o = s.st.r.o ++ w
          ∧ ((∀ c s1, (arg.parse p st argname).withIndex i ≠ .exit c s1) → w = "") := by
    intro arg st argname i hb hr
    obtain ⟨h1, w, h2, h3⟩ := arg.parse_running p st argname
    rw [Flow.withIndex_state, ← hr]
    refine ⟨h1, w, h2, fun hne => h3 hb ?_⟩
    intro c s1 heq
    exact hne c ⟨s1, i⟩ (by rw [heq]; rfl)
  have hany : ∀ (arg : Argument Val) (st : State Val) (argname : String) (i : Nat),
      st.r = s.st.r →
      ((arg.parse p st argname).withIndex i).state.st.r.app = s.st.r.app
        ∧ ∃ w, ((arg.parse p st argname).withIndex i).state.st.r.o = s.st.r.o ++ w := by
    intro arg st argname i hr
    obtain ⟨h1, w, h2, _⟩ := arg.parse_running p st argname
    rw [Flow.withIndex_state, ← hr]
    exact ⟨h1, w, h2⟩
  have hsame : ∀ (e : ParserError) (s1 : LoopState Val), s1.st.r = s.st.r →
      (Flow.throw e s1).state.st.r.app = s.st.r.app
        ∧ ∃ w, (Flow.throw e s1).state.st.r.o = s.st.r.o ++ w
          ∧ (p.noUserCallback → (∀ c s2, Flow.throw e s1 ≠ .exit c s2) → w = "") := by
    intro e s1 hr
    simp only [Flow.state, hr, true_and]
    exact ⟨"", by simp, fun _ _ => rfl⟩
  cases h : s.st.args.args with
  | nil =>
    have hd : p.dispatch s = .throw (ParserError.new
        ("All positional arguments have been consumed: " ++ "")) s
        ∨ ∃ hi : s.positionalIndex < p.positionals.length, p.dispatch s =
          ((p.positionals.get ⟨s.positionalIndex, hi⟩).parse p s.st "POSITIONAL").withIndex
            (s.positionalIndex + 1) := by
      by_cases hi : s.positionalIndex < p.positionals.length
      · right
        exact ⟨hi, by simp [Parser.dispatch, Arguments.index, h, IsOptional, Nat.not_le.mpr hi]⟩
      · left
        simp [Parser.dispatch, Arguments.index, h, IsOptional, Nat.le_of_not_lt hi]
    rcases hd with hd | ⟨hi, hd⟩
    · rw [hd]; exact hsame _ _ rfl
    · rw [hd]
      obtain ⟨h1, w, h2⟩ := hany (p.positionals.get ⟨s.positionalIndex, hi⟩) s.st "POSITIONAL"
        (s.positionalIndex + 1) rfl
      by_cases hn : p.noUserCallback
      · obtain ⟨h1, w, h2, h3⟩ := hlift (p.positionals.get ⟨s.positionalIndex, hi⟩) s.st
          "POSITIONAL" (s.positionalIndex + 1) (hn.1 _ (List.get_mem _ _ _)) rfl
        exact ⟨h1, w, h2, fun _ => h3⟩
      · exact ⟨h1, w, h2, fun h => absurd h hn⟩
  | cons tok rest =>
    cases ho : IsOptional tok with
    | true =>
      rw [p.dispatch_optional s tok rest h ho]
      cases hf : Optionals.find p.optionals tok with
      | none => exact hsame _ _ rfl
      | some arg =>
        obtain ⟨h1, w, h2⟩ := hany arg ⟨s.st.r, ⟨rest⟩, s.st.vars⟩ tok s.positionalIndex rfl
        by_cases hn : p.noUserCallback
        · obtain ⟨kv, hmem, hkv⟩ := Optionals.find_mem _ _ _ hf
          obtain ⟨h1, w, h2, h3⟩ := hlift arg ⟨s.st.r, ⟨rest⟩, s.st.vars⟩ tok s.positionalIndex
            (hkv ▸ hn.2 kv hmem) rfl
          exact ⟨h1, w, h2, fun _ => h3⟩
        · exact ⟨h1, w, h2, fun h => absurd h hn⟩
    | false =>
      by_cases hi : s.positionalIndex < p.positionals.length
      · rw [p.dispatch_positional s tok rest h ho hi]
        obtain ⟨h1, w, h2⟩ := hany (p.positionals.get ⟨s.positionalIndex, hi⟩) s.st "POSITIONAL"
          (s.positionalIndex + 1) rfl
        by_cases hn : p.noUserCallback
        · obtain ⟨h1, w, h2, h3⟩ := hlift (p.positionals.get ⟨s.positionalIndex, hi⟩) s.st
            "POSITIONAL" (s.positionalIndex + 1) (hn.1 _ (List.get_mem _ _ _)) rfl
          exact ⟨h1, w, h2, fun _ => h3⟩
        · exact ⟨h1, w, h2, fun h => absurd h hn⟩
      · rw [p.dispatch_consumed s tok rest h ho (Nat.le_of_not_lt hi)]
        exact hsame _ _ rfl

theorem Parser.loop_running {Val : Type} (p : Parser Val) :
    ∀ (fuel : Nat) (s : LoopState Val) (f : Flow (LoopState Val)), p.loop fuel s = some f →
      f.state.st.r.app = s.st.r.app
        ∧ ∃ w, f.state.st.r.o = s.st.r.o ++ w
          ∧ (p.noUserCallback → (∀ c s1, f ≠ .exit c s1) → w = "") := by
  intro fuel
  induction fuel with
  | zero => intro s f h; simp [Parser.loop] at h
  | succ n ih =>
    intro s f h
    rw [p.loop_succ] at h
    cases hne : s.st.args.empty with
    | true =>
      simp only [hne, Bool.true_eq_false, beq_iff_eq, if_false, Option.some.injEq] at h
      subst h
      exact ⟨rfl, "", by simp [Flow.state], fun _ _ => rfl⟩
    | false =>
      obtain ⟨h1, w1, h2, h3⟩ := p.dispatch_running s
      simp only [hne, beq_self_eq_true, if_true] at h
      cases hd : p.dispatch s with
      | ret s1 =>
        rw [hd] at h h1 h2 h3
        simp only [Flow.state] at h1 h2
        obtain ⟨k1, w2, k2, k3⟩ := ih s1 f h
        refine ⟨k1.trans h1, w1 ++ w2, by rw [k2, h2, String.append_assoc], ?_⟩
        intro hn hne2
        rw [h3 hn (fun c s2 => by simp), k3 hn hne2]
        rfl
      | throw e s1 =>
        rw [hd] at h h1 h2 h3
        simp only [Option.some.injEq] at h
        subst h
        exact ⟨h1, w1, h2, h3⟩
      | exit c s1 =>
        rw [hd] at h h1 h2 h3
        simp only [Option.some.injEq] at h
        subst h
        exact ⟨h1, w1, h2, h3⟩

theorem Parser.tryBlock_running {Val : Type} (p : Parser Val) (fuel : Nat)
    (s : LoopState Val) (f : Flow (LoopState Val)) (h : p.tryBlock fuel s = some f) :
    f.state.st.r.app = s.st.r.app
      ∧ ∃ w, f.state.st.r.o = s.st.r.o ++ w
        ∧ (p.noUserCallback → (∀ c s1, f ≠ .exit c s1) → w = "") := by
  unfold Parser.tryBlock at h
  cases hl : p.loop fuel s with
  | none => simp [hl] at h
  | some g =>
    have hg := p.loop_running fuel s g hl
    rw [hl] at h
    cases g with
    | ret s1 =>
      by_cases hc : (s1.positionalIndex != p.positionals.length) = true
      · simp only [] at h
        rw [if_pos hc] at h
        simp only [Option.some.injEq] at h
        subst h
        obtain ⟨h1, w, h2, h3⟩ := hg
        exact ⟨h1, w, h2, fun hn _ => h3 hn (fun c s2 => by simp)⟩
      · simp only [] at h
        rw [if_neg hc] at h
        simp only [Option.some.injEq] at h
        subst h
        exact hg
    | throw e s1 =>
      simp only [Option.some.injEq] at h
      subst h
      exact hg
    | exit c s1 =>
      simp only [Option.some.injEq] at h
      subst h
      exact hg

/-! ## Lemmas on the extractions -/

theorem isspace_not_digit (c : Char) (h : c.isDigit = true) : isspace c = false := by
  cases hs : isspace c with
  | false => rfl
  | true =>
    simp only [isspace, Bool.or_eq_true, beq_iff_eq] at hs
    rcases hs with ((((rfl | rfl) | rfl) | rfl) | rfl) | rfl <;> simp at h

theorem takeWhile_append_stop {α : Type} (q : α → Bool) :
    ∀ (xs rest : List α), (∀ c ∈ xs, q c = true) → (∀ c, rest.head? = some c → q c = false) →
      (xs ++ rest).takeWhile q = xs := by
  intro xs
  induction xs with
  | nil =>
    intro rest _ hrest
    cases rest with
    | nil => rfl
    | cons c cs => simp [List.takeWhile, hrest c rfl]
  | cons x xs ih =>
    intro rest hxs hrest
    rw [List.cons_append, List.takeWhile_cons, hxs x (List.mem_cons_self _ _), if_pos rfl,
      ih rest (fun c hc => hxs c (List.mem_cons_of_mem _ hc)) hrest]

theorem extractInt_digits (ds rest : List Char) (hne : ds ≠ [])
    (hds : ∀ c ∈ ds, c.isDigit = true) (hrest : ∀ c, rest.head? = some c → c.isDigit = false)
    (hmax : digitsValue ds ≤ 2147483647) :
    extractInt ⟨ds ++ rest⟩ = some (digitsValue ds : Int) := by
  have htake := takeWhile_append_stop Char.isDigit ds rest hds hrest
  cases ds with
  | nil => exact absurd rfl hne
  | cons d ds =>
    have hd : d.isDigit = true := hds d (List.mem_cons_self _ _)
    have hsp : isspace d = false := isspace_not_digit d hd
    have hminus : d ≠ '-' := by rintro rfl; simp at hd
    have hplus : d ≠ '+' := by rintro rfl; simp at hd
    have hdrop : (d :: ds ++ rest).dropWhile isspace = d :: ds ++ rest := by
      rw [List.cons_append, List.dropWhile_cons, hsp]; rfl
    have hhead : (d :: ds ++ rest).head? = some d := rfl
    have h1 : (some d == some '-') = false := by simp [hminus]
    have h2 : (some d == some '+') = false := by simp [hplus]
    simp only [extractInt, hdrop, hhead, h1, h2, Bool.or_self, Bool.false_eq_true, if_false,
      htake, List.isEmpty_cons]
    rw [if_pos ⟨by omega, by omega⟩]

theorem extractString_word (w rest : List Char) (sp : Char) (hne : w ≠ [])
    (hw : ∀ c ∈ w, isspace c = false) (hsp : isspace sp = true) :
    extractString ⟨w ++ sp :: rest⟩ = some ⟨w⟩ := by
  have htake := takeWhile_append_stop (fun c => !isspace c) w (sp :: rest)
    (fun c hc => by simp [hw c hc]) (fun c hc => by
      simp only [List.head?_cons, Option.some.injEq] at hc
      subst hc
      simp [hsp])
  cases w with
  | nil => exact absurd rfl hne
  | cons d ds =>
    have hdrop : (d :: ds ++ sp :: rest).dropWhile isspace = d :: ds ++ sp :: rest := by
      rw [List.cons_append, List.dropWhile_cons, hw d (List.mem_cons_self _ _)]; rfl
    simp only [extractString, hdrop, htake, List.isEmpty_cons, Bool.false_eq_true, if_false]
/-! ## The claims -/

/-- C1: on a parser whose cursor is zero and whose positionals are typed
arguments of arity `Exact(1)` with the `Assign` combiner and pairwise distinct
targets, listed in `items` in registration order each with its token and the
value its converter gives for it, and whatever optionals are registered: for
the token list of these tokens, none classified optional, `parseArgs` returns
`ParseComplete`, every positional's target holds the conversion of its token,
and every other variable (so the target of every optional) keeps its value. -/
theorem parseArgs_exact_one_positionals {Val : Type} (p : Parser Val) (app : String)
    (items : List (ArgumentT Val × String × Val)) (vars : Nat → Val) (out error : String)
    (hfresh : p.positionalIndex = 0)
    (hpos : p.positionals = items.map (fun x => Argument.ArgumentT x.1))
    (hitems : ∀ x ∈ items, x.1.count = Count.ofSize 1 ∧ x.1.combine = Assign
      ∧ IsOptional x.2.1 = false ∧ x.1.converter x.2.1 = .ok x.2.2)
    (hdistinct : (items.map (fun x => x.1.target)).Nodup) :
    ∃ r, p.parseArgs (app :: items.map (fun x => x.2.1)) vars out error = some r
      ∧ r.outcome = .returned .ParseComplete
      ∧ (∀ x ∈ items, r.vars x.1.target = x.2.2)
      ∧ (∀ addr, addr ∉ items.map (fun x => x.1.target) → r.vars addr = vars addr) := by
  have hloop := p.loop_exact_one ⟨app, out⟩ items 0 vars
    (p.measure (p.start (app :: items.map (fun x => x.2.1)) vars out) + 1)
    (by rw [List.drop_zero, hpos])
    (fun x hx => ⟨(hitems x hx).1, (hitems x hx).2.2.1, (hitems x hx).2.2.2⟩)
    (by simp [Parser.measure, Parser.start, Arguments.new, Arguments.size]; omega)
  rw [p.parseArgs_eq _ vars out error _ (Nat.lt_succ_self _)]
  have hstart : p.start (app :: items.map (fun x => x.2.1)) vars out =
      ⟨⟨⟨app, out⟩, ⟨items.map (fun x => x.2.1)⟩, vars⟩, 0⟩ := by
    simp [Parser.start, Arguments.new, hfresh]
  rw [hstart] at hloop ⊢
  simp only [Parser.tryBlock, hloop, hpos, List.length_map, Nat.zero_add, bne_self_eq_false,
    Bool.false_eq_true, if_false, Option.map_some', Parser.catchBlock]
  refine ⟨_, rfl, rfl, ?_, ?_⟩
  · exact foldl_assign_target items vars hdistinct (fun x hx => (hitems x hx).2.1)
  · intro addr haddr
    exact foldl_assign_other addr items vars haddr

/-- C1, witness: the parser of `main` with the tokens `gcc 5` gives
`compiler = "gcc"`, `i = 5`, and `op` keeps 2. -/
theorem parseArgs_exact_one_positionals_witness :
    ∃ r, mainParser.parseArgs ["app", "gcc", "5"] (mainVars 0) "" "" = some r
      ∧ r.outcome = .returned .ParseComplete
      ∧ r.vars addrCompiler = .string "gcc" ∧ r.vars addrI = .int 5
      ∧ r.vars addrOp = .int 2 := by
  obtain ⟨r, h1, h2, h3, h4⟩ := parseArgs_exact_one_positionals mainParser "app"
    [(⟨addrCompiler, Count.ofSize 1, Assign, StandardConverter extractStringValue⟩,
        "gcc", Value.string "gcc"),
      (⟨addrI, Count.ofSize 1, Assign, StandardConverter extractIntValue⟩, "5", Value.int 5)]
    (mainVars 0) "" "" rfl rfl
    (by
      intro x hx
      simp only [List.mem_cons, List.mem_singleton, List.not_mem_nil, or_false] at hx
      rcases hx with rfl | rfl <;> exact ⟨rfl, rfl, rfl, rfl⟩)
    (by decide)
  refine ⟨r, h1, h2, h3 _ (List.mem_cons_self _ _), ?_, ?_⟩
  · exact h3 _ (List.mem_cons_of_mem _ (List.mem_cons_self _ _))
  · rw [h4 addrOp (by decide)]; rfl

/-- C5: an argument of arity `Exact(n)` run on a stream that starts with `n`
tokens `toks` whose conversions succeed with the values `vals` (whether or not
a token looks like an optional name) returns with exactly these `n` tokens
removed and the rest of the stream left as it was; its target holds the
combiner folded over the converted values in stream order and no other
variable has changed; for `n = 0` the state is unchanged. -/
theorem ArgumentT.parse_exact {Val : Type} (a : ArgumentT Val) (n : Nat) (s : State Val)
    (argname : String) (toks rest : List String) (vals : List Val)
    (hcount : a.count = Count.ofSize n) (hargs : s.args.args = toks ++ rest)
    (hlen : toks.length = n) (hconv : toks.map a.converter = vals.map Except.ok) :
    ∃ s1, a.parse s argname = .ret s1 ∧ s1.args.args = rest ∧ s1.r = s.r
      ∧ s1.vars a.target = vals.foldl a.combine (s.vars a.target)
      ∧ (∀ x, x ≠ a.target → s1.vars x = s.vars x)
      ∧ (n = 0 → s1 = s) := by
  obtain ⟨r, ⟨args⟩, vars⟩ := s
  simp only at hargs
  subst hargs
  rw [a.parse_const n _ _ hcount, a.constLoop_ok argname r rest toks vals n 0 vars hlen hconv]
  refine ⟨_, rfl, rfl, rfl, foldl_combine_target _ _ _ _, ?_, ?_⟩
  · intro x hx
    exact foldl_combine_other _ _ _ hx _ _
  · intro hn
    subst hn
    have ht : toks = [] := List.length_eq_zero.mp hlen
    subst ht
    have hv : vals = [] := by cases vals with
      | nil => rfl
      | cons v vs => simp at hconv
    subst hv
    rfl

/-- C5, witness: `Exact(2)` with the appending combiner on the stream
`-a 7 x` takes `-a` and `7` and leaves `x`. -/
theorem ArgumentT.parse_exact_witness :
    ∃ s1, (⟨addrStrings, Count.ofSize 2, PushBackVector,
        StandardConverter extractStringValue⟩ : ArgumentT Value).parse
          ⟨⟨"app", ""⟩, ⟨["-a", "7", "x"]⟩, mainVars 0⟩ "POSITIONAL" = .ret s1
      ∧ s1.args.args = ["x"] ∧ s1.r = ⟨"app", ""⟩
      ∧ s1.vars addrStrings = [Value.string "-a", Value.string "7"].foldl PushBackVector
          (mainVars 0 addrStrings)
      ∧ (∀ x, x ≠ addrStrings → s1.vars x = mainVars 0 x)
      ∧ (2 = 0 → s1 = ⟨⟨"app", ""⟩, ⟨["-a", "7", "x"]⟩, mainVars 0⟩) :=
  ArgumentT.parse_exact ⟨addrStrings, Count.ofSize 2, PushBackVector,
    StandardConverter extractStringValue⟩ 2 ⟨⟨"app", ""⟩, ⟨["-a", "7", "x"]⟩, mainVars 0⟩
    "POSITIONAL" ["-a", "7"] ["x"] [Value.string "-a", Value.string "7"] rfl rfl rfl rfl

/-- C2: when the passes of the loop over the token list all return and leave
the stream empty in a state `s`, `parseArgs` returns `ParseFailed` with the
diagnostic `too few arguments` if the cursor of `s` differs from the number of
registered positionals, and `ParseComplete` otherwise; on a fresh parser with
a registered positional the empty token list fails. -/
theorem parseArgs_end_of_input {Val : Type} (p : Parser Val) (app : String)
    (tokens : List String) (vars : Nat → Val) (out error : String) (k : Nat)
    (s : LoopState Val) (hfresh : p.positionalIndex = 0)
    (hrun : p.passes k (p.start (app :: tokens) vars out) = some s)
    (hend : s.st.args.empty = true) :
    ∃ r, p.parseArgs (app :: tokens) vars out error = some r
      ∧ (s.positionalIndex ≠ p.positionals.length →
          r.outcome = .returned .ParseFailed
          ∧ r.error = error ++ app ++ ": " ++ (ParserError.new "too few arguments").what
              ++ "\n" ++ "\n")
      ∧ (s.positionalIndex = p.positionals.length →
          r.outcome = .returned .ParseComplete ∧ r.error = error)
      ∧ (tokens = [] → p.positionals ≠ [] → r.outcome = .returned .ParseFailed) := by
  rw [p.parseArgs_passes _ vars out error k s hrun, p.tryBlock_empty _ s hend]
  have hempty : tokens = [] → p.positionals ≠ [] → s.positionalIndex ≠ p.positionals.length := by
    intro ht hp
    subst ht
    cases k with
    | zero =>
      simp only [Parser.passes, Option.some.injEq] at hrun
      subst hrun
      simp only [Parser.start, hfresh]
      intro h0
      exact hp (List.length_eq_zero.mp h0.symm)
    | succ k => simp [Parser.passes, Parser.start, Arguments.new, Arguments.empty] at hrun
  by_cases hc : s.positionalIndex = p.positionals.length
  · rw [if_neg (by simp [hc])]
    exact ⟨_, rfl, fun h => absurd hc h, fun _ => ⟨rfl, rfl⟩,
      fun ht hp => absurd hc (hempty ht hp)⟩
  · rw [if_pos (by simp [hc])]
    exact ⟨_, rfl, fun _ => ⟨rfl, rfl⟩, fun h => absurd h hc, fun _ _ => rfl⟩

/-- C2, witness: the parser of `main` with the single token `gcc` fails with
`too few arguments`, the positional `int` being left over. -/
theorem parseArgs_end_of_input_witness :
    ∃ r, mainParser.parseArgs ["app", "gcc"] (mainVars 0) "" "" = some r
      ∧ r.outcome = .returned .ParseFailed
      ∧ r.error = "app: error: too few arguments\n\n" := by
  obtain ⟨r, h, h1, _, _⟩ := parseArgs_end_of_input mainParser "app" ["gcc"] (mainVars 0) "" ""
    1 ⟨⟨⟨"app", ""⟩, ⟨[]⟩, assignVar (mainVars 0) addrCompiler (Value.string "gcc")⟩, 1⟩
    rfl rfl rfl
  exact ⟨r, h, (h1 (by decide)).1, (h1 (by decide)).2.trans (by decide)⟩

/-- C3, as amended: when the loop reaches a token classified optional that is
no key of the optional map, `parseArgs` returns `ParseFailed`, and the text
written to `error` is the program name, `: `, then the message
`error: Unknown optional argument: ` followed by that token, then two line
ends. -/
theorem parseArgs_unknown_optional {Val : Type} (p : Parser Val) (app : String)
    (tokens : List String) (vars : Nat → Val) (out error : String) (k : Nat)
    (s : LoopState Val) (tok : String) (rest : List String)
    (hrun : p.passes k (p.start (app :: tokens) vars out) = some s)
    (hargs : s.st.args.args = tok :: rest) (hopt : IsOptional tok = true)
    (hfind : Optionals.find p.optionals tok = none) :
    ∃ r, p.parseArgs (app :: tokens) vars out error = some r
      ∧ r.outcome = .returned .ParseFailed
      ∧ r.error = error ++ app ++ ": " ++ "error: Unknown optional argument: " ++ tok
          ++ "\n" ++ "\n" := by
  have hd := p.dispatch_optional s tok rest hargs hopt
  rw [hfind] at hd
  rw [p.parseArgs_passes _ vars out error k s hrun,
    p.tryBlock_throw _ s _ _ (by simp [Arguments.empty, hargs]) hd]
  refine ⟨_, rfl, rfl, ?_⟩
  have hlit : "error: " ++ ("Unknown optional argument: " ++ tok)
      = "error: Unknown optional argument: " ++ tok := by
    rw [← String.append_assoc]; rfl
  simp only [Parser.catchBlock, ParserError.new, List.headD_cons, hlit, String.append_assoc]

/-- C3, witness: the tokens `gcc 5 -bogus` on the parser of `main`. -/
theorem parseArgs_unknown_optional_witness :
    ∃ r, mainParser.parseArgs ["app", "gcc", "5", "-bogus"] (mainVars 0) "" "" = some r
      ∧ r.outcome = .returned .ParseFailed
      ∧ r.error = "" ++ "app" ++ ": " ++ "error: Unknown optional argument: " ++ "-bogus"
          ++ "\n" ++ "\n" :=
  parseArgs_unknown_optional mainParser "app" ["gcc", "5", "-bogus"] (mainVars 0) "" "" 2
    ⟨⟨⟨"app", ""⟩, ⟨["-bogus"]⟩, assignVar (assignVar (mainVars 0) addrCompiler
      (Value.string "gcc")) addrI (Value.int 5)⟩, 2⟩ "-bogus" [] rfl rfl rfl rfl

/-- C3, counterexample: for the tokens `gcc 5 -bogus` the text written to
`error` is `app: error: Unknown optional argument: -bogus`, in which the text
`unknown optional argument: -bogus` of the claim does not occur. -/
theorem parseArgs_unknown_optional_counterexample :
    ∃ r, mainParser.parseArgs ["app", "gcc", "5", "-bogus"] (mainVars 0) "" "" = some r
      ∧ r.outcome = .returned .ParseFailed
      ∧ r.error = "app: error: Unknown optional argument: -bogus\n\n"
      ∧ ¬ ("unknown optional argument: -bogus".data <:+: r.error.data) :=
  ⟨_, rfl, rfl, by decide, by decide⟩

/-- C4, as amended: the parse of an argument of arity `ZeroOrMore` or `ZeroOrOne`
removes from the stream only tokens that `IsOptional` classifies as not optional,
and the parse of an argument of arity `AtLeastOne` does so after the first
token, which it takes whatever it looks like; no other token reaches the
converter: the parse is the same with any converter that agrees on the
tokens not classified optional (and, for `AtLeastOne`, on the first token). -/
theorem ArgumentT.parse_lookahead {Val : Type} (a : ArgumentT Val) (s : State Val)
    (argname : String)
    (harity : a.count.type = .ZeroOrMore ∨ a.count.type = .Optional
      ∨ a.count.type = .MoreThanOne) :
    (∃ consumed, s.args.args = consumed ++ (a.parse s argname).state.args.args
      ∧ ∀ t ∈ (if a.count.type = .MoreThanOne then consumed.drop 1 else consumed),
          IsOptional t = false)
    ∧ ∀ conv : String → Except ParserError Val,
        (∀ t, IsOptional t = false → conv t = a.converter t) →
        (a.count.type = .MoreThanOne → conv (s.args.index 0) = a.converter (s.args.index 0)) →
        ({ a with converter := conv } : ArgumentT Val).parse s argname = a.parse s argname := by
  rcases harity with h | h | h
  · constructor
    · obtain ⟨c, h1, h2⟩ := a.whileLoop_suffix s.r s.args.args s.vars
      exact ⟨c, by simpa [ArgumentT.parse, h] using h1, by simpa [h] using h2⟩
    · intro conv hc _
      simp only [ArgumentT.parse, h]
      exact a.whileLoop_converter s.r conv hc _ _
  · constructor
    · simp only [ArgumentT.parse, h]
      by_cases he : s.args.empty = true
      · exact ⟨[], by simp [he, Flow.state]⟩
      · by_cases ho : IsOptional (s.args.index 0) = true
        · exact ⟨[], by simp [he, ho, Flow.state]⟩
        · obtain ⟨c, h1, _, h3⟩ := a.take_consumed s "internal error"
          refine ⟨c, by simpa [he, ho] using h1, ?_⟩
          intro t ht
          simp only [reduceCtorEq, if_false] at ht
          rw [h3 t ht]
          simpa using ho
    · intro conv hc _
      simp only [ArgumentT.parse, h]
      by_cases he : s.args.empty = true
      · simp [he]
      · by_cases ho : IsOptional (s.args.index 0) = true
        · simp [he, ho]
        · simp only [he, ho, Bool.false_eq_true, if_false]
          exact a.take_converter s _ conv (hc _ (by simpa using ho))
  · constructor
    · simp only [ArgumentT.parse, h, if_true]
      cases ht : a.take s ("argument " ++ argname ++ ": expected atleast one argument") with
      | ret s1 =>
        obtain ⟨tok, htok⟩ := a.take_ret s s1 _ ht
        obtain ⟨c2, h2, h3⟩ := a.whileLoop_suffix s1.r s1.args.args s1.vars
        exact ⟨tok :: c2, by rw [htok, List.cons_append, ← h2], by simpa using h3⟩
      | throw e s1 =>
        obtain ⟨c, h1, h2, _⟩ := a.take_consumed s
          ("argument " ++ argname ++ ": expected atleast one argument")
        rw [ht] at h1
        refine ⟨c, h1, ?_⟩
        have hd : c.drop 1 = [] := List.drop_eq_nil_of_le h2
        simp [hd]
      | exit code s1 =>
        obtain ⟨c, h1, h2, _⟩ := a.take_consumed s
          ("argument " ++ argname ++ ": expected atleast one argument")
        rw [ht] at h1
        refine ⟨c, h1, ?_⟩
        have hd : c.drop 1 = [] := List.drop_eq_nil_of_le h2
        simp [hd]
    · intro conv hc hfirst
      simp only [ArgumentT.parse, h]
      rw [a.take_converter s _ conv (hfirst h)]
      cases a.take s ("argument " ++ argname ++ ": expected atleast one argument") with
      | ret s1 => exact a.whileLoop_converter s1.r conv hc _ _
      | throw e s1 => rfl
      | exit code s1 => rfl

/-- C4, witness: an `AtLeastOne` argument on the stream `a -x`. -/
theorem ArgumentT.parse_lookahead_witness :
    ∃ consumed, ["a", "-x"] = consumed ++ ((⟨addrStrings, Count.ofType .MoreThanOne,
        PushBackVector, StandardConverter extractStringValue⟩ : ArgumentT Value).parse
          ⟨⟨"app", ""⟩, ⟨["a", "-x"]⟩, mainVars 0⟩ "-strings").state.args.args
      ∧ ∀ t ∈ consumed.drop 1, IsOptional t = false := by
  obtain ⟨c, h1, h2⟩ := (ArgumentT.parse_lookahead (⟨addrStrings, Count.ofType .MoreThanOne,
    PushBackVector, StandardConverter extractStringValue⟩ : ArgumentT Value)
    ⟨⟨"app", ""⟩, ⟨["a", "-x"]⟩, mainVars 0⟩ "-strings" (Or.inr (Or.inr rfl))).1
  exact ⟨c, h1, h2⟩

/-- C4, counterexample: the `AtLeastOne` argument `-strings` of `main` on the
stream `-op -x` removes the token `-op`, which `IsOptional` classifies as
optional, converts it and appends it to its target. -/
theorem ArgumentT.parse_lookahead_counterexample :
    IsOptional "-op" = true
      ∧ ∃ s1, (⟨addrStrings, Count.ofType .MoreThanOne, PushBackVector,
          StandardConverter extractStringValue⟩ : ArgumentT Value).parse
            ⟨⟨"app", ""⟩, ⟨["-op", "-x"]⟩, mainVars 0⟩ "-strings" = .ret s1
        ∧ s1.args.args = ["-x"] ∧ s1.vars addrStrings = .strings ["-op"] :=
  ⟨rfl, _, rfl, rfl, rfl⟩

/-- C6, the code at the failing input: a parser with the single `Exact(1)`
positional `compiler`
parses the token `gcc` to `ParseComplete` and is left with cursor 1; the
second call with the same token returns `ParseFailed`. -/
theorem parseArgs_twice_differs :
    ∃ r1 r2,
      ((Parser.new "description" "").call extractStringValue "compiler" addrCompiler
          Extra.new Assign (StandardConverter extractStringValue)).parseArgs
        ["app", "gcc"] (mainVars 0) "" "" = some r1
      ∧ r1.outcome = .returned .ParseComplete
      ∧ r1.parser.positionalIndex = 1
      ∧ r1.parser.parseArgs ["app", "gcc"] r1.vars r1.out r1.error = some r2
      ∧ r2.outcome = .returned .ParseFailed
      ∧ r2.error = "app: error: All positional arguments have been consumed: gcc\n\n" :=
  ⟨_, _, rfl, rfl, rfl, rfl, rfl, by decide⟩

/-- C7, as amended: when two optional arguments are registered under the same
name, not registered before, the optional map afterwards still maps the name
to the first of them; a pass of the loop that reads this name runs the parse of
the first registration, and when both are typed arguments with different
targets, the target of the second keeps its value. -/
theorem Parser.insert_same_name {Val : Type} (p : Parser Val) (name : String)
    (a1 a2 : Argument Val) (e1 e2 : Extra) (hname : IsOptional name = true)
    (hnew : Optionals.find p.optionals name = none) :
    Optionals.find ((p.insert name a1 e1).insert name a2 e2).optionals name = some a1
      ∧ (∀ (s : LoopState Val) (rest : List String), s.st.args.args = name :: rest →
          ((p.insert name a1 e1).insert name a2 e2).dispatch s =
            (a1.parse ((p.insert name a1 e1).insert name a2 e2)
              ⟨s.st.r, ⟨rest⟩, s.st.vars⟩ name).withIndex s.positionalIndex)
      ∧ (∀ (t1 t2 : ArgumentT Val) (s : LoopState Val) (rest : List String),
          a1 = .ArgumentT t1 → a2 = .ArgumentT t2 → t2.target ≠ t1.target →
          s.st.args.args = name :: rest →
          (((p.insert name a1 e1).insert name a2 e2).dispatch s).state.st.vars t2.target
            = s.st.vars t2.target) := by
  have h1 : Optionals.find (p.insert name a1 e1).optionals name = some a1 := by
    simp only [Parser.insert, hname, if_true]
    exact Optionals.find_insert_new _ _ _ hnew
  have h2 : ((p.insert name a1 e1).insert name a2 e2).optionals
      = (p.insert name a1 e1).optionals := by
    simp only [Parser.insert, hname, if_true]
    apply Optionals.insert_present _ _ _ a1
    simpa [Parser.insert, hname] using h1
  have hfind : Optionals.find ((p.insert name a1 e1).insert name a2 e2).optionals name
      = some a1 := by rw [h2, h1]
  have hdisp : ∀ (s : LoopState Val) (rest : List String), s.st.args.args = name :: rest →
      ((p.insert name a1 e1).insert name a2 e2).dispatch s =
        (a1.parse ((p.insert name a1 e1).insert name a2 e2)
          ⟨s.st.r, ⟨rest⟩, s.st.vars⟩ name).withIndex s.positionalIndex := by
    intro s rest hs
    rw [Parser.dispatch_optional _ s name rest hs hname, hfind]
  refine ⟨hfind, hdisp, ?_⟩
  intro t1 t2 s rest ht1 ht2 hne hs
  rw [hdisp s rest hs, Flow.withIndex_state, ht1]
  exact (t1.parse_frame ⟨s.st.r, ⟨rest⟩, s.st.vars⟩ name).2 _ hne

/-- C7, witness: `-op` registered twice on the parser of `main`, first with
target `op` (from `main`) and then with target `i`; the map keeps the first. -/
theorem Parser.insert_same_name_witness :
    Optionals.find
      ((((Parser.new "description" "" : Parser Value).insert "-op"
        (.ArgumentT ⟨addrOp, Count.ofSize 1, Assign, StandardConverter extractIntValue⟩)
        Extra.new).insert "-op"
        (.ArgumentT ⟨addrI, Count.ofSize 1, Assign, StandardConverter extractIntValue⟩)
        Extra.new).optionals) "-op"
      = some (.ArgumentT ⟨addrOp, Count.ofSize 1, Assign, StandardConverter extractIntValue⟩) :=
  (Parser.insert_same_name (Parser.new "description" "" : Parser Value) "-op"
    (.ArgumentT ⟨addrOp, Count.ofSize 1, Assign, StandardConverter extractIntValue⟩)
    (.ArgumentT ⟨addrI, Count.ofSize 1, Assign, StandardConverter extractIntValue⟩)
    Extra.new Extra.new rfl rfl).1

/-- C7, counterexample: with `-op` registered first for the variable `op` and
then for the variable `i`, the tokens `-op 9` write 9 to `op`, the target of
the first registration, and leave `i`, the target of the second, at 0. -/
theorem Parser.insert_same_name_counterexample :
    ∃ r, (((Parser.new "description" "" : Parser Value).call extractIntValue "-op" addrOp
          Extra.new Assign (StandardConverter extractIntValue)).call extractIntValue "-op"
          addrI Extra.new Assign (StandardConverter extractIntValue)).parseArgs
        ["app", "-op", "9"] (mainVars 0) "" "" = some r
      ∧ r.outcome = .returned .ParseComplete
      ∧ r.vars addrOp = .int 9 ∧ r.vars addrI = .int 0 :=
  ⟨_, rfl, rfl, rfl, rfl⟩

/-- C9, as amended: `StandardConverter` returns the extracted value when the
extraction succeeds and else fails with the `ParserError` whose message is
`Failed to parse ` followed by the token; it does not ask that the whole token
be read: at `int`, a token made of a run of digits `ds` (of value at most
2147483647) followed by characters `rest` that do not start with a digit
converts to the value of `ds`, and at `std::string`, a token made of a word `w`
without white space followed by a white space character and anything else
converts to `w`. -/
theorem StandardConverter_reads_leading (ds rest w tail : List Char) (sp : Char)
    (hds : ds ≠ []) (hdigits : ∀ c ∈ ds, c.isDigit = true)
    (hrest : ∀ c, rest.head? = some c → c.isDigit = false)
    (hmax : digitsValue ds ≤ 2147483647)
    (hw : w ≠ []) (hword : ∀ c ∈ w, isspace c = false) (hsp : isspace sp = true) :
    (∀ (extract : String → Option Value) (tok : String) (t : Value),
      extract tok = some t → StandardConverter extract tok = .ok t)
    ∧ (∀ (extract : String → Option Value) (tok : String),
      extract tok = none →
        StandardConverter extract tok = .error ⟨"error: Failed to parse " ++ tok⟩)
    ∧ StandardConverter extractIntValue ⟨ds ++ rest⟩ = .ok (.int (digitsValue ds))
    ∧ StandardConverter extractStringValue ⟨w ++ sp :: tail⟩ = .ok (.string ⟨w⟩) := by
  refine ⟨fun extract tok t h => by simp [StandardConverter, h], fun extract tok h => ?_, ?_, ?_⟩
  · have hlit : "error: " ++ ("Failed to parse " ++ tok) = "error: Failed to parse " ++ tok := by
      rw [← String.append_assoc]; rfl
    simp only [StandardConverter, h, ParserError.new, hlit]
  · simp [StandardConverter, extractIntValue, extractInt_digits ds rest hds hdigits hrest hmax]
  · simp [StandardConverter, extractStringValue, extractString_word w tail sp hw hword hsp]

/-- C9, witness: the tokens `5x` and `a b`. -/
theorem StandardConverter_reads_leading_witness :
    StandardConverter extractIntValue "5x" = .ok (.int 5)
      ∧ StandardConverter extractStringValue "a b" = .ok (.string "a") :=
  (StandardConverter_reads_leading ['5'] ['x'] ['a'] ['b'] ' ' (by decide) (by decide)
    (by decide) (by decide) (by decide) (by decide) (by decide)).2.2

/-- C9, counterexample: the token `5x` is not rejected but converted to 5, and
the token `a b` is not rejected but converted to `a`. -/
theorem StandardConverter_reads_leading_counterexample :
    StandardConverter extractIntValue "5x" = .ok (.int 5)
      ∧ (∀ e, StandardConverter extractIntValue "5x" ≠ .error e)
      ∧ StandardConverter extractStringValue "a b" = .ok (.string "a")
      ∧ (∀ e, StandardConverter extractStringValue "a b" ≠ .error e) :=
  ⟨rfl, fun _ h => (by cases h), rfl, fun _ h => (by cases h)⟩

/-- C10, as amended: for an optional name registered with arity `Exact(1)` and
no metavar, `Help::usage` returns `[`, the name, a blank, then the upper-cased
name without its first character inside a further pair of brackets, then
`]`. -/
theorem Help.usage_exact_one (name : String) (e : Extra) (hname : IsOptional name = true)
    (hcount : e.mCount = Count.ofSize 1) (hmeta : e.mMetavar = "") :
    (Help.new name e).usage = "[" ++ name ++ " " ++ ("[" ++ Upper (substr1 name) ++ "]") ++ "]" := by
  have hempty : "".isEmpty = true := rfl
  simp [Help.usage, Help.new, Help.metavarrep, Help.constLoop, Help.metavarname, hname, hcount,
    hmeta, hempty, Count.ofSize, Count.type, Count.count]

/-- C10, witness: `-op` renders as `[-op [OP]]`. -/
theorem Help.usage_exact_one_witness :
    (Help.new "-op" Extra.new).usage = "[" ++ "-op" ++ " " ++ ("[" ++ "OP" ++ "]") ++ "]" :=
  Help.usage_exact_one "-op" Extra.new rfl rfl rfl

/-- C10, counterexample: `-op` with arity `Exact(1)` and no metavar renders as
`[-op [OP]]`, not as `[-op OP]`. -/
theorem Help.usage_exact_one_counterexample :
    (Help.new "-op" Extra.new).usage = "[-op [OP]]"
      ∧ (Help.new "-op" Extra.new).usage ≠ "[-op OP]" :=
  ⟨by decide, by decide⟩

/-! ## Lemmas on the `while` loop and the appending combiner -/

theorem ArgumentT.whileLoop_ok {Val : Type} (a : ArgumentT Val) (r : Running)
    (rest : List String) (hrest : ∀ t, rest.head? = some t → IsOptional t = true) :
    ∀ (toks : List String) (vals : List Val) (vars : Nat → Val),
      (∀ t ∈ toks, IsOptional t = false) → toks.map a.converter = vals.map Except.ok →
      a.whileLoop r (toks ++ rest) vars =
        .ret ⟨r, ⟨rest⟩,
          vals.foldl (fun vs v => assignVar vs a.target (a.combine (vs a.target) v)) vars⟩ := by
  intro toks
  induction toks with
  | nil =>
    intro vals vars _ hc
    cases vals with
    | cons v vs => simp at hc
    | nil =>
      cases rest with
      | nil => rfl
      | cons t ts => simp [ArgumentT.whileLoop, hrest t rfl]
  | cons tok toks ih =>
    intro vals vars hopt hc
    cases vals with
    | nil => simp at hc
    | cons v vs =>
      simp only [List.map_cons, List.cons.injEq] at hc
      simp only [List.cons_append, ArgumentT.whileLoop, hopt tok (List.mem_cons_self _ _),
        beq_self_eq_true, if_true, hc.1, List.foldl_cons]
      exact ih vs _ (fun t ht => hopt t (List.mem_cons_of_mem _ ht)) hc.2

theorem foldl_PushBackVector (ws : List String) :
    ∀ old : List String,
      (ws.map Value.string).foldl PushBackVector (.strings old) = .strings (old ++ ws) := by
  induction ws with
  | nil => intro old; simp
  | cons w ws ih =>
    intro old
    simp only [List.map_cons, List.foldl_cons, PushBackVector, ih, List.append_assoc,
      List.singleton_append]

/-! ## Lemmas for the remaining arities and for registration -/

theorem ArgumentT.constLoop_fail {Val : Type} (a : ArgumentT Val) (argname : String)
    (r : Running) (rest : List String) (bad : String) (e : ParserError)
    (hbad : a.converter bad = .error e) :
    ∀ (toks : List String) (vals : List Val) (k i : Nat) (vars : Nat → Val),
      toks.length < k → toks.map a.converter = vals.map Except.ok →
      a.constLoop argname k i ⟨r, ⟨toks ++ bad :: rest⟩, vars⟩ =
        .throw e ⟨r, ⟨rest⟩,
          vals.foldl (fun vs v => assignVar vs a.target (a.combine (vs a.target) v)) vars⟩ := by
  intro toks
  induction toks with
  | nil =>
    intro vals k i vars hk hc
    cases vals with
    | cons v vs => simp at hc
    | nil =>
      cases k with
      | zero => simp at hk
      | succ k =>
        simp only [List.nil_append, ArgumentT.constLoop, List.foldl_nil]
        rw [a.take_error ⟨r, ⟨bad :: rest⟩, vars⟩ _ bad rest e rfl hbad]
  | cons tok toks ih =>
    intro vals k i vars hk hc
    cases vals with
    | nil => simp at hc
    | cons v vs =>
      cases k with
      | zero => simp at hk
      | succ k =>
        simp only [List.map_cons, List.cons.injEq] at hc
        simp only [List.cons_append, ArgumentT.constLoop, List.foldl_cons]
        rw [a.take_ok ⟨r, ⟨tok :: (toks ++ bad :: rest)⟩, vars⟩ _ tok (toks ++ bad :: rest) v
          rfl hc.1]
        exact ih vs k (i + 1) _ (by simp only [List.length_cons] at hk; omega) hc.2

theorem Optionals.find_insert_some {Val : Type} (m : Optionals Val) (name : String)
    (arg : Argument Val) : Optionals.find (Optionals.insert m name arg) name ≠ none := by
  cases h : Optionals.find m name with
  | none => rw [Optionals.find_insert_new m name arg h]; simp
  | some old => rw [Optionals.insert_present m name arg old h, h]; simp

/-! ## Lemmas on the progress of the loop and on the cursor -/

theorem Parser.dispatch_progress {Val : Type} (p : Parser Val) (s : LoopState Val)
    (hne : s.st.args.empty = false) :
    ((p.dispatch s).state.st.args.size < s.st.args.size
        ∧ (p.dispatch s).state.positionalIndex = s.positionalIndex)
      ∨ (s.positionalIndex < p.positionals.length
        ∧ (p.dispatch s).state.positionalIndex = s.positionalIndex + 1
        ∧ (p.dispatch s).state.st.args.size ≤ s.st.args.size)
      ∨ ∃ e, p.dispatch s = .throw e s := by
  cases h : s.st.args.args with
  | nil => simp [Arguments.empty, h] at hne
  | cons tok rest =>
    cases ho : IsOptional tok with
    | true =>
      left
      rw [p.dispatch_optional s tok rest h ho]
      cases Optionals.find p.optionals tok with
      | none => simp [Flow.state, Arguments.size, h]
      | some r =>
        have hle := r.parse_size_le p ⟨s.st.r, ⟨rest⟩, s.st.vars⟩ tok
        simp only [Flow.withIndex_state, Arguments.size, h, List.length_cons] at hle ⊢
        exact ⟨by omega, trivial⟩
    | false =>
      by_cases hi : s.positionalIndex < p.positionals.length
      · right; left
        rw [p.dispatch_positional s tok rest h ho hi]
        have hle := (p.positionals.get ⟨s.positionalIndex, hi⟩).parse_size_le p s.st "POSITIONAL"
        simp only [Flow.withIndex_state]
        exact ⟨hi, trivial, hle⟩
      · right; right
        exact ⟨_, p.dispatch_consumed s tok rest h ho (Nat.le_of_not_lt hi)⟩

theorem Parser.dispatch_index_le {Val : Type} (p : Parser Val) (s : LoopState Val)
    (hne : s.st.args.empty = false) (hle : s.positionalIndex ≤ p.positionals.length) :
    (p.dispatch s).state.positionalIndex ≤ p.positionals.length := by
  rcases p.dispatch_progress s hne with ⟨_, h⟩ | ⟨h1, h2, _⟩ | ⟨e, h⟩
  · rw [h]; exact hle
  · rw [h2]; exact h1
  · rw [h]; exact hle

theorem Parser.loop_index_le {Val : Type} (p : Parser Val) :
    ∀ (fuel : Nat) (s : LoopState Val) (f : Flow (LoopState Val)), p.loop fuel s = some f →
      s.positionalIndex ≤ p.positionals.length →
      f.state.positionalIndex ≤ p.positionals.length := by
  intro fuel
  induction fuel with
  | zero => intro s f h; simp [Parser.loop] at h
  | succ n ih =>
    intro s f h hle
    rw [p.loop_succ] at h
    cases hne : s.st.args.empty with
    | true =>
      simp only [hne, Bool.true_eq_false, beq_iff_eq, if_false, Option.some.injEq] at h
      subst h
      exact hle
    | false =>
      have hd := p.dispatch_index_le s hne hle
      simp only [hne, beq_self_eq_true, if_true] at h
      cases hf : p.dispatch s with
      | ret s1 =>
        rw [hf] at h hd
        exact ih s1 f h hd
      | throw e s1 =>
        rw [hf] at h hd
        simp only [Option.some.injEq] at h
        subst h
        exact hd
      | exit c s1 =>
        rw [hf] at h hd
        simp only [Option.some.injEq] at h
        subst h
        exact hd

theorem Parser.tryBlock_index_le {Val : Type} (p : Parser Val) (fuel : Nat)
    (s : LoopState Val) (f : Flow (LoopState Val)) (h : p.tryBlock fuel s = some f)
    (hle : s.positionalIndex ≤ p.positionals.length) :
    f.state.positionalIndex ≤ p.positionals.length := by
  unfold Parser.tryBlock at h
  cases hl : p.loop fuel s with
  | none => simp [hl] at h
  | some g =>
    have hg := p.loop_index_le fuel s g hl hle
    rw [hl] at h
    cases g with
    | ret s1 =>
      simp only [] at h
      by_cases hc : (s1.positionalIndex != p.positionals.length) = true
      · rw [if_pos hc] at h
        simp only [Option.some.injEq] at h
        subst h
        exact hg
      · rw [if_neg hc] at h
        simp only [Option.some.injEq] at h
        subst h
        exact hg
    | throw e s1 =>
      simp only [Option.some.injEq] at h
      subst h
      exact hg
    | exit c s1 =>
      simp only [Option.some.injEq] at h
      subst h
      exact hg

theorem Parser.parseArgs_index_le {Val : Type} (p : Parser Val) (argv : List String)
    (vars : Nat → Val) (out error : String) (r : Result Val)
    (h : p.parseArgs argv vars out error = some r)
    (hle : p.positionalIndex ≤ p.positionals.length) :
    r.parser.positionalIndex ≤ r.parser.positionals.length := by
  simp only [Parser.parseArgs, Option.map_eq_some'] at h
  obtain ⟨f, hf, hcatch⟩ := h
  have hi := p.tryBlock_index_le _ _ f hf hle
  rw [← hcatch]
  cases f <;> exact hi

theorem Parser.passes_index_le {Val : Type} (p : Parser Val) :
    ∀ (k : Nat) (s0 s : LoopState Val), p.passes k s0 = some s →
      s0.positionalIndex ≤ p.positionals.length → s.positionalIndex ≤ p.positionals.length := by
  intro k
  induction k with
  | zero =>
    intro s0 s h hle
    simp only [Parser.passes, Option.some.injEq] at h
    subst h
    exact hle
  | succ k ih =>
    intro s0 s h hle
    unfold Parser.passes at h
    cases hne : s0.st.args.empty with
    | true => simp [hne] at h
    | false =>
      have hd := p.dispatch_index_le s0 hne hle
      cases hf : p.dispatch s0 with
      | ret s1 =>
        rw [hf] at hd
        simp only [hne, hf, beq_self_eq_true, if_true] at h
        exact ih s1 s h hd
      | throw e s1 => simp [hne, hf] at h
      | exit c s1 => simp [hne, hf] at h

theorem Parser.Reachable.index_le {Val : Type} (p : Parser Val) (h : p.Reachable) :
    p.positionalIndex ≤ p.positionals.length := by
  induction h with
  | new d a => exact Nat.zero_le _
  | insert p name arg extra _ ih =>
    unfold Parser.insert
    split
    · exact ih
    · simp only [List.length_append, List.length_singleton]
      omega
  | parseArgs p argv vars out error r _ hr ih =>
    exact p.parseArgs_index_le argv vars out error r hr ih

theorem mainParser_reachable : mainParser.Reachable := by
  unfold mainParser Parser.call Parser.add
  exact .insert _ _ _ _ (.insert _ _ _ _ (.insert _ _ _ _ (.insert _ _ _ _ (.new _ _))))

/-! ## Lemmas on the text that callbacks write -/

theorem Argument.parse_written {Val : Type} (p : Parser Val) (arg : Argument Val)
    (s : State Val) (argname : String) (hnx : ∀ c s1, arg.parse p s argname ≠ .exit c s1) :
    (arg.parse p s argname).state.r.app = s.r.app
      ∧ (arg.parse p s argname).state.r.o = s.r.o ++ arg.written s argname := by
  cases arg with
  | ArgumentT a =>
    have h := (a.parse_frame s argname).1
    simp only [Argument.parse, Argument.written, h, String.append_empty, and_self]
  | FunctionArgument f =>
    cases f with
    | CallHelp => exact absurd rfl (hnx _ _)
    | function f =>
      simp only [Argument.parse, CallbackEffect.apply, Argument.written]
      cases (f s.r s.args s.vars argname).ending <;> exact ⟨rfl, rfl⟩

theorem Flow.withIndex_no_exit {Val : Type} (f : Flow (State Val)) (i : Nat)
    (h : ∀ c s1, f.withIndex i ≠ .exit c s1) : ∀ c s1, f ≠ .exit c s1 := by
  intro c s1 heq
  exact h c ⟨s1, i⟩ (by rw [heq]; rfl)

theorem Parser.dispatch_written {Val : Type} (p : Parser Val) (s : LoopState Val)
    (hne : s.st.args.empty = false) (hnx : ∀ c s1, p.dispatch s ≠ .exit c s1) :
    (p.dispatch s).state.st.r.app = s.st.r.app
      ∧ (p.dispatch s).state.st.r.o = s.st.r.o ++ p.passWritten s := by
  cases h : s.st.args.args with
  | nil => simp [Arguments.empty, h] at hne
  | cons tok rest =>
    cases ho : IsOptional tok with
    | true =>
      have hd := p.dispatch_optional s tok rest h ho
      have hw : p.passWritten s =
          match Optionals.find p.optionals tok with
          | none => ""
          | some r => r.written ⟨s.st.r, ⟨rest⟩, s.st.vars⟩ tok := by
        simp [Parser.passWritten, Arguments.index, Arguments.get, h, ho]
      rw [hw]
      cases hf : Optionals.find p.optionals tok with
      | none =>
        rw [hd, hf]
        simp [Flow.state]
      | some r =>
        rw [hf] at hd
        simp only [] at hd
        rw [hd] at hnx ⊢
        have hp := r.parse_written p ⟨s.st.r, ⟨rest⟩, s.st.vars⟩ tok
          (Flow.withIndex_no_exit _ _ hnx)
        rw [Flow.withIndex_state]
        exact hp
    | false =>
      by_cases hi : s.positionalIndex < p.positionals.length
      · have hd := p.dispatch_positional s tok rest h ho hi
        have hw : p.passWritten s =
            (p.positionals.get ⟨s.positionalIndex, hi⟩).written s.st "POSITIONAL" := by
          simp [Parser.passWritten, Arguments.index, h, ho, Nat.not_le.mpr hi]
        rw [hw]
        rw [hd] at hnx ⊢
        have hp := (p.positionals.get ⟨s.positionalIndex, hi⟩).parse_written p s.st "POSITIONAL"
          (Flow.withIndex_no_exit _ _ hnx)
        rw [Flow.withIndex_state]
        exact hp
      · have hw : p.passWritten s = "" := by
          simp [Parser.passWritten, Arguments.index, h, ho, Nat.le_of_not_lt hi]
        rw [p.dispatch_consumed s tok rest h ho (Nat.le_of_not_lt hi), hw]
        simp [Flow.state]

theorem Parser.loop_written {Val : Type} (p : Parser Val) :
    ∀ (fuel : Nat) (s : LoopState Val) (f : Flow (LoopState Val)), p.loop fuel s = some f →
      (∀ c s1, f ≠ .exit c s1) →
      f.state.st.r.app = s.st.r.app
        ∧ f.state.st.r.o = s.st.r.o ++ p.loopWritten fuel s := by
  intro fuel
  induction fuel with
  | zero => intro s f h; simp [Parser.loop] at h
  | succ n ih =>
    intro s f h hnx
    rw [p.loop_succ] at h
    cases hne : s.st.args.empty with
    | true =>
      simp only [hne, Bool.true_eq_false, beq_iff_eq, if_false, Option.some.injEq] at h
      subst h
      simp [Flow.state, Parser.loopWritten, hne]
    | false =>
      simp only [hne, beq_self_eq_true, if_true] at h
      cases hd : p.dispatch s with
      | ret s1 =>
        have hp := p.dispatch_written s hne (by rw [hd]; intro c s2 hc; cases hc)
        rw [hd] at h hp
        simp only [Flow.state] at hp
        obtain ⟨k1, k2⟩ := ih s1 f h hnx
        refine ⟨k1.trans hp.1, ?_⟩
        rw [k2, hp.2]
        simp [Parser.loopWritten, hne, hd, String.append_assoc]
      | throw e s1 =>
        rw [hd] at h
        simp only [Option.some.injEq] at h
        subst h
        have hp := p.dispatch_written s hne (by rw [hd]; exact hnx)
        rw [hd] at hp
        refine ⟨hp.1, ?_⟩
        rw [hp.2]
        simp [Parser.loopWritten, hne, hd]
      | exit c s1 =>
        rw [hd] at h
        simp only [Option.some.injEq] at h
        subst h
        exact absurd rfl (hnx c s1)

theorem Argument.written_builtin {Val : Type} (arg : Argument Val) (s : State Val)
    (argname : String) (h : arg.builtin) : arg.written s argname = "" := by
  cases arg with
  | ArgumentT a => rfl
  | FunctionArgument f =>
    cases f with
    | CallHelp => rfl
    | function f => exact absurd h (by simp [Argument.builtin])

theorem Parser.passWritten_builtin {Val : Type} (p : Parser Val) (s : LoopState Val)
    (hn : p.noUserCallback) : p.passWritten s = "" := by
  unfold Parser.passWritten
  split
  · split
    · rfl
    · split
      · rfl
      · rename_i r hf
        obtain ⟨kv, hmem, hkv⟩ := Optionals.find_mem _ _ _ hf
        exact Argument.written_builtin _ _ _ (hkv ▸ hn.2 kv hmem)
  · split
    · rfl
    · exact Argument.written_builtin _ _ _ (hn.1 _ (List.get_mem _ _ _))

theorem Parser.loopWritten_builtin {Val : Type} (p : Parser Val) (hn : p.noUserCallback) :
    ∀ (fuel : Nat) (s : LoopState Val), p.loopWritten fuel s = "" := by
  intro fuel
  induction fuel with
  | zero => intro s; rfl
  | succ n ih =>
    intro s
    unfold Parser.loopWritten
    split
    · split
      · rw [p.passWritten_builtin s hn, ih]; rfl
      · exact p.passWritten_builtin s hn
    · rfl

theorem Parser.tryBlock_written {Val : Type} (p : Parser Val) (fuel : Nat)
    (s : LoopState Val) (f : Flow (LoopState Val)) (h : p.tryBlock fuel s = some f)
    (hnx : ∀ c s1, f ≠ .exit c s1) :
    f.state.st.r.app = s.st.r.app
      ∧ f.state.st.r.o = s.st.r.o ++ p.loopWritten fuel s := by
  unfold Parser.tryBlock at h
  cases hl : p.loop fuel s with
  | none => simp [hl] at h
  | some g =>
    rw [hl] at h
    cases g with
    | ret s1 =>
      have hg := p.loop_written fuel s _ hl (by intro c s2 hc; cases hc)
      simp only [] at h
      by_cases hc : (s1.positionalIndex != p.positionals.length) = true
      · rw [if_pos hc] at h
        simp only [Option.some.injEq] at h
        subst h
        exact hg
      · rw [if_neg hc] at h
        simp only [Option.some.injEq] at h
        subst h
        exact hg
    | throw e s1 =>
      simp only [Option.some.injEq] at h
      subst h
      exact p.loop_written fuel s _ hl hnx
    | exit c s1 =>
      simp only [Option.some.injEq] at h
      subst h
      exact absurd rfl (hnx c s1)

/-! ## The claims, continued -/

/-- C11, as amended: a pass of the loop that reads the name of an optional
argument registered with arity `AtLeastOne` and the appending combiner,
followed by `m >= 1` tokens `toks`, none classified optional, whose conversions
succeed and give the strings `ws`, followed by the end of the stream or by a token classified
optional: the pass returns, the target holds its old elements followed by `ws`
in order, no other variable has changed, the stream is left at the token that
follows, and the positional cursor is what it was. -/
theorem Parser.dispatch_at_least_one (p : Parser Value) (s : LoopState Value)
    (a : ArgumentT Value) (name : String) (toks rest : List String) (ws old : List String)
    (hname : IsOptional name = true)
    (hfind : Optionals.find p.optionals name = some (.ArgumentT a))
    (hcount : a.count = Count.ofType .MoreThanOne) (hcombine : a.combine = PushBackVector)
    (hargs : s.st.args.args = name :: (toks ++ rest)) (hm : 1 ≤ toks.length)
    (htoks : ∀ t ∈ toks, IsOptional t = false)
    (hconv : toks.map a.converter = (ws.map Value.string).map Except.ok)
    (hrest : ∀ t, rest.head? = some t → IsOptional t = true)
    (hold : s.st.vars a.target = .strings old) :
    ∃ s1, p.dispatch s = .ret s1
      ∧ s1.st.vars a.target = .strings (old ++ ws)
      ∧ (∀ x, x ≠ a.target → s1.st.vars x = s.st.vars x)
      ∧ s1.st.args.args = rest
      ∧ s1.positionalIndex = s.positionalIndex
      ∧ s1.st.r = s.st.r := by
  cases toks with
  | nil => simp at hm
  | cons tok toks =>
    cases ws with
    | nil => simp at hconv
    | cons w ws =>
      simp only [List.map_cons, List.cons.injEq] at hconv
      have htake := a.take_ok ⟨s.st.r, ⟨tok :: toks ++ rest⟩, s.st.vars⟩
        ("argument " ++ name ++ ": expected atleast one argument") tok (toks ++ rest)
        (Value.string w) rfl hconv.1
      have hwhile := a.whileLoop_ok s.st.r rest hrest toks (ws.map Value.string)
        (assignVar s.st.vars a.target (a.combine (s.st.vars a.target) (Value.string w)))
        (fun t ht => htoks t (List.mem_cons_of_mem _ ht)) hconv.2
      have hd : p.dispatch s = .ret ⟨⟨s.st.r, ⟨rest⟩,
          (ws.map Value.string).foldl
            (fun vs v => assignVar vs a.target (a.combine (vs a.target) v))
            (assignVar s.st.vars a.target (a.combine (s.st.vars a.target) (Value.string w)))⟩,
          s.positionalIndex⟩ := by
        rw [p.dispatch_optional s name _ hargs hname, hfind]
        simp only [Argument.parse, ArgumentT.parse, hcount, Count.ofType, Count.type]
        rw [htake]
        simp only [hwhile]
        rfl
      refine ⟨_, hd, ?_, ?_, rfl, rfl, rfl⟩
      · simp only []
        rw [foldl_combine_target, assignVar_same, hold, hcombine]
        have h := foldl_PushBackVector ws (old ++ [w])
        simpa [PushBackVector] using h
      · intro x hx
        simp only []
        rw [foldl_combine_other _ _ _ hx, assignVar_other _ _ _ _ hx]

/-- C11, witness: on the parser of `main`, with the cursor at 2, the pass that
reads `-strings a b` before `-op 9` leaves `strings = ["a", "b"]`, the stream at `-op`
and the cursor at 2; the whole parse gives `strings = ["a", "b"]`, `op = 9` and
`ParseComplete`. -/
theorem Parser.dispatch_at_least_one_witness :
    (∃ s1, mainParser.dispatch ⟨⟨⟨"app", ""⟩, ⟨["-strings", "a", "b", "-op", "9"]⟩,
          mainVars 0⟩, 2⟩ = .ret s1
        ∧ s1.st.vars addrStrings = .strings ([] ++ ["a", "b"])
        ∧ (∀ x, x ≠ addrStrings → s1.st.vars x = mainVars 0 x)
        ∧ s1.st.args.args = ["-op", "9"]
        ∧ s1.positionalIndex = 2
        ∧ s1.st.r = ⟨"app", ""⟩)
      ∧ ∃ r, mainParser.parseArgs ["app", "gcc", "5", "-strings", "a", "b", "-op", "9"]
          (mainVars 0) "" "" = some r
        ∧ r.outcome = .returned .ParseComplete
        ∧ r.vars addrStrings = .strings ["a", "b"] ∧ r.vars addrOp = .int 9 :=
  ⟨Parser.dispatch_at_least_one mainParser
      ⟨⟨⟨"app", ""⟩, ⟨["-strings", "a", "b", "-op", "9"]⟩, mainVars 0⟩, 2⟩
      ⟨addrStrings, Count.ofType .MoreThanOne, PushBackVector,
        StandardConverter extractStringValue⟩
      "-strings" ["a", "b"] ["-op", "9"] ["a", "b"] [] rfl rfl rfl rfl rfl (by decide)
      (by decide) rfl (by decide) rfl,
    _, rfl, rfl, rfl, rfl⟩

/-- C11, counterexample: on the parser of `main` the token `a b` after
`-strings` is not classified optional, yet what is appended is `a`, not the
token; and the empty token, not classified optional either, is not appended
at all: its conversion fails and the parse returns `ParseFailed`. -/
theorem Parser.dispatch_at_least_one_counterexample :
    IsOptional "a b" = false ∧ IsOptional "" = false
      ∧ (∃ r, mainParser.parseArgs ["app", "gcc", "5", "-strings", "a b"] (mainVars 0) "" ""
          = some r
        ∧ r.outcome = .returned .ParseComplete
        ∧ r.vars addrStrings = .strings ["a"]
        ∧ r.vars addrStrings ≠ .strings ["a b"])
      ∧ ∃ r, mainParser.parseArgs ["app", "gcc", "5", "-strings", ""] (mainVars 0) "" ""
          = some r
        ∧ r.outcome = .returned .ParseFailed
        ∧ r.vars addrStrings = .strings []
        ∧ r.error = "app: error: Failed to parse \n\n" :=
  ⟨rfl, rfl, ⟨_, rfl, rfl, rfl, by decide⟩, _, rfl, rfl, rfl, rfl⟩

set_option maxRecDepth 8000 in
/-- C12, the code at the failing input: the positional `pair` of arity
`Exact(2)` parsed with the single token `a` fails with a message that gives the
arity and the count already given but names the argument `POSITIONAL`; the
text `pair` is not in it.  The same argument registered as the optional
`-pair` is named in its message. -/
theorem parseArgs_positional_unnamed :
    (∃ r, ((Parser.new "description" "" : Parser Value).add "pair" addrStrings
          (Extra.new.count (Count.ofSize 2)) PushBackVector
          (StandardConverter extractStringValue)).parseArgs ["app", "a"] (mainVars 0) "" ""
        = some r
      ∧ r.outcome = .returned .ParseFailed
      ∧ r.error = "app: error: argument POSITIONAL: expected 2 argument(s), 1 already given\n\n"
      ∧ ¬ ("pair".data <:+: r.error.data))
    ∧ ∃ r, ((Parser.new "description" "" : Parser Value).add "-pair" addrStrings
          (Extra.new.count (Count.ofSize 2)) PushBackVector
          (StandardConverter extractStringValue)).parseArgs ["app", "-pair", "a"]
          (mainVars 0) "" "" = some r
      ∧ r.outcome = .returned .ParseFailed
      ∧ r.error = "app: error: argument -pair: expected 2 argument(s), 1 already given\n\n" :=
  ⟨⟨_, rfl, rfl, rfl, by decide⟩, _, rfl, rfl, rfl⟩

/-- C13: whenever the loop reaches a token `tok` not classified optional while
the cursor is at least the number of registered positionals, the pass throws
with the state as it is (the token stays in the stream, no variable changes),
and `parseArgs` returns `ParseFailed` with the diagnostic
`All positional arguments have been consumed: ` followed by `tok`; in
particular a parser with no positional fails so on every token list whose
first token is not classified optional. -/
theorem parseArgs_positionals_consumed {Val : Type} (p : Parser Val) (app : String)
    (tokens : List String) (vars : Nat → Val) (out error : String) :
    (∀ (k : Nat) (s : LoopState Val) (tok : String) (rest : List String),
      p.passes k (p.start (app :: tokens) vars out) = some s →
      s.st.args.args = tok :: rest → IsOptional tok = false →
      p.positionals.length ≤ s.positionalIndex →
      p.dispatch s =
          .throw (ParserError.new ("All positional arguments have been consumed: " ++ tok)) s
        ∧ ∃ r, p.parseArgs (app :: tokens) vars out error = some r
          ∧ r.outcome = .returned .ParseFailed
          ∧ r.error = error ++ app ++ ": "
              ++ "error: All positional arguments have been consumed: " ++ tok ++ "\n" ++ "\n"
          ∧ r.vars = s.st.vars ∧ r.parser.positionalIndex = s.positionalIndex)
    ∧ (p.positionals = [] → ∀ (tok : String) (rest : List String),
        tokens = tok :: rest → IsOptional tok = false →
        ∃ r, p.parseArgs (app :: tokens) vars out error = some r
          ∧ r.outcome = .returned .ParseFailed
          ∧ r.error = error ++ app ++ ": "
              ++ "error: All positional arguments have been consumed: " ++ tok ++ "\n" ++ "\n"
          ∧ r.vars = vars) := by
  have main : ∀ (k : Nat) (s : LoopState Val) (tok : String) (rest : List String),
      p.passes k (p.start (app :: tokens) vars out) = some s →
      s.st.args.args = tok :: rest → IsOptional tok = false →
      p.positionals.length ≤ s.positionalIndex →
      p.dispatch s =
          .throw (ParserError.new ("All positional arguments have been consumed: " ++ tok)) s
        ∧ ∃ r, p.parseArgs (app :: tokens) vars out error = some r
          ∧ r.outcome = .returned .ParseFailed
          ∧ r.error = error ++ app ++ ": "
              ++ "error: All positional arguments have been consumed: " ++ tok ++ "\n" ++ "\n"
          ∧ r.vars = s.st.vars ∧ r.parser.positionalIndex = s.positionalIndex := by
    intro k s tok rest hrun hargs hopt hidx
    have hd := p.dispatch_consumed s tok rest hargs hopt hidx
    refine ⟨hd, ?_⟩
    rw [p.parseArgs_passes _ vars out error k s hrun,
      p.tryBlock_throw _ s _ _ (by simp [Arguments.empty, hargs]) hd]
    refine ⟨_, rfl, rfl, ?_, rfl, rfl⟩
    have hlit : "error: " ++ ("All positional arguments have been consumed: " ++ tok)
        = "error: All positional arguments have been consumed: " ++ tok := by
      rw [← String.append_assoc]; rfl
    simp only [Parser.catchBlock, ParserError.new, List.headD_cons, hlit, String.append_assoc]
  refine ⟨main, ?_⟩
  intro hnone tok rest htok hopt
  obtain ⟨_, r, h1, h2, h3, h4, _⟩ := main 0 (p.start (app :: tokens) vars out) tok rest rfl
    (by simp [Parser.start, Arguments.new, htok]) hopt (by simp [hnone])
  exact ⟨r, h1, h2, h3, h4⟩

/-- C13, witness: a parser with no positional on the token `x`. -/
theorem parseArgs_positionals_consumed_witness :
    ∃ r, (Parser.new "description" "" : Parser Value).parseArgs ["app", "x"] (mainVars 0) "" ""
        = some r
      ∧ r.outcome = .returned .ParseFailed
      ∧ r.error = "" ++ "app" ++ ": "
          ++ "error: All positional arguments have been consumed: " ++ "x" ++ "\n" ++ "\n"
      ∧ r.vars = mainVars 0 :=
  (parseArgs_positionals_consumed (Parser.new "description" "" : Parser Value) "app" ["x"]
    (mainVars 0) "" "").2 rfl "x" [] rfl rfl

/-- C14: `Help::metavarname` returns the metavar when it is not empty; else,
for a name classified optional, the name without its first character and with
every character left upper-cased (one character shorter than the name); else
the name as registered. -/
theorem Help.metavarname_cases (h : Help) :
    (h.metavar ≠ "" → h.metavarname = h.metavar)
    ∧ (h.metavar = "" → IsOptional h.name = true →
        h.metavarname.data = (h.name.data.drop 1).map Char.toUpper
        ∧ h.metavarname.data.length + 1 = h.name.data.length)
    ∧ (h.metavar = "" → IsOptional h.name = false → h.metavarname = h.name) := by
  refine ⟨fun hm => ?_, fun hm ho => ?_, fun hm ho => ?_⟩
  · have he : h.metavar.isEmpty = false := by
      cases hc : h.metavar.isEmpty with
      | false => rfl
      | true => exact absurd ((String.isEmpty_iff _).mp hc) hm
    simp [Help.metavarname, he]
  · have he : h.metavar.isEmpty = true := by rw [hm]; rfl
    have hd : h.metavarname.data = (h.name.data.drop 1).map Char.toUpper := by
      simp [Help.metavarname, he, ho, Upper, substr1]
    refine ⟨hd, ?_⟩
    rw [hd]
    cases hn : h.name.data with
    | nil => simp [IsOptional, hn] at ho
    | cons c cs => simp
  · have he : h.metavar.isEmpty = true := by rw [hm]; rfl
    simp [Help.metavarname, he, ho]

/-- C14, witness: the optional `-op` without metavar gives `OP`, with the
metavar `string` gives `string`, and the positional `compiler` gives
`compiler`. -/
theorem Help.metavarname_cases_witness :
    (Help.new "-op" Extra.new).metavarname.data = ("-op".data.drop 1).map Char.toUpper
      ∧ (Help.new "-op" Extra.new).metavarname = "OP"
      ∧ (Help.new "-strings" (Extra.new.metavar "string")).metavarname = "string"
      ∧ (Help.new "compiler" Extra.new).metavarname = "compiler" :=
  ⟨((Help.metavarname_cases (Help.new "-op" Extra.new)).2.1 rfl rfl).1, rfl,
    (Help.metavarname_cases (Help.new "-strings" (Extra.new.metavar "string"))).1 (by decide),
    (Help.metavarname_cases (Help.new "compiler" Extra.new)).2.2 rfl rfl⟩

/-- C15: `IsOptional` holds exactly of the non-empty strings whose first
character is `-`; `Parser::insert` puts a name into the optional map (and
leaves the positionals alone) when `IsOptional` holds of it and else appends
the argument to the positionals (and leaves the map alone); a pass of the loop
on a stream whose first token is `tok` takes the optional path (the token is
removed and looked up in the map, the cursor stays) when `IsOptional tok`, and
else the positional path (the token stays for the positional at the cursor,
or the pass fails when the cursor is past the positionals). -/
theorem IsOptional_decides {Val : Type} (p : Parser Val) (name : String) (arg : Argument Val)
    (extra : Extra) (s : LoopState Val) (tok : String) (rest : List String)
    (hargs : s.st.args.args = tok :: rest) :
    (∀ str : String, IsOptional str = true ↔ str ≠ "" ∧ str.data.head? = some '-')
    ∧ (IsOptional name = true →
        (p.insert name arg extra).optionals = Optionals.insert p.optionals name arg
        ∧ Optionals.find (p.insert name arg extra).optionals name ≠ none
        ∧ (p.insert name arg extra).positionals = p.positionals)
    ∧ (IsOptional name = false →
        (p.insert name arg extra).positionals = p.positionals ++ [arg]
        ∧ (p.insert name arg extra).optionals = p.optionals)
    ∧ (IsOptional tok = true →
        (Optionals.find p.optionals tok = none →
          p.dispatch s = .throw (ParserError.new ("Unknown optional argument: " ++ tok))
            ⟨⟨s.st.r, ⟨rest⟩, s.st.vars⟩, s.positionalIndex⟩)
        ∧ ∀ r, Optionals.find p.optionals tok = some r →
          p.dispatch s
            = (r.parse p ⟨s.st.r, ⟨rest⟩, s.st.vars⟩ tok).withIndex s.positionalIndex)
    ∧ (IsOptional tok = false →
        (p.positionals.length ≤ s.positionalIndex →
          p.dispatch s = .throw (ParserError.new
            ("All positional arguments have been consumed: " ++ tok)) s)
        ∧ ∀ hi : s.positionalIndex < p.positionals.length,
          p.dispatch s = ((p.positionals.get ⟨s.positionalIndex, hi⟩).parse p s.st
            "POSITIONAL").withIndex (s.positionalIndex + 1)) := by
  refine ⟨fun str => ?_, fun ho => ?_, fun ho => ?_, fun ho => ?_, fun ho => ?_⟩
  · obtain ⟨cs⟩ := str
    cases cs with
    | nil => simp [IsOptional]
    | cons c cs =>
      have hne : (⟨c :: cs⟩ : String) ≠ "" := by
        intro h
        have := congrArg String.data h
        simp at this
      simp [IsOptional, hne]
  · have h1 : (p.insert name arg extra).optionals = Optionals.insert p.optionals name arg := by
      simp [Parser.insert, ho]
    refine ⟨h1, ?_, by simp [Parser.insert, ho]⟩
    rw [h1]
    exact Optionals.find_insert_some _ _ _
  · simp [Parser.insert, ho]
  · have hd := p.dispatch_optional s tok rest hargs ho
    refine ⟨fun hf => ?_, fun r hf => ?_⟩
    · rw [hd, hf]
    · rw [hd, hf]
  · exact ⟨fun hi => p.dispatch_consumed s tok rest hargs ho hi,
      fun hi => p.dispatch_positional s tok rest hargs ho hi⟩

/-- C15, witness: on the parser of `main`, the token `-op` is looked up in the
map and the cursor stays at 0. -/
theorem IsOptional_decides_witness :
    mainParser.dispatch ⟨⟨⟨"app", ""⟩, ⟨["-op", "9"]⟩, mainVars 0⟩, 0⟩
      = ((Argument.ArgumentT ⟨addrOp, Count.ofSize 1, Assign,
          StandardConverter extractIntValue⟩).parse mainParser
            ⟨⟨"app", ""⟩, ⟨["9"]⟩, mainVars 0⟩ "-op").withIndex 0 :=
  ((IsOptional_decides mainParser "-op" (Argument.FunctionArgument .CallHelp) Extra.new
    ⟨⟨⟨"app", ""⟩, ⟨["-op", "9"]⟩, mainVars 0⟩, 0⟩ "-op" ["9"] rfl).2.2.2.1 rfl).2 _ rfl

/-- C16: an argument of arity `Exact(n)` run on a stream that starts with fewer
than `n` tokens `toks` whose conversions succeed with the values `vals`,
followed by a token `bad` whose conversion fails with `e`: the parse throws
`e`; the target holds the combiner folded over `vals` (nothing is rolled
back) and no other variable has changed; exactly `toks` and `bad` have been
removed from the stream; and the parse is the same whatever the converter
does on any other token, so no later token is converted. -/
theorem ArgumentT.parse_exact_fails {Val : Type} (a : ArgumentT Val) (n : Nat)
    (s : State Val) (argname : String) (toks rest : List String) (vals : List Val)
    (bad : String) (e : ParserError)
    (hcount : a.count = Count.ofSize n) (hargs : s.args.args = toks ++ bad :: rest)
    (hk : toks.length < n) (hconv : toks.map a.converter = vals.map Except.ok)
    (hbad : a.converter bad = .error e) :
    (∃ s1, a.parse s argname = .throw e s1 ∧ s1.args.args = rest ∧ s1.r = s.r
      ∧ s1.vars a.target = vals.foldl a.combine (s.vars a.target)
      ∧ ∀ x, x ≠ a.target → s1.vars x = s.vars x)
    ∧ ∀ conv : String → Except ParserError Val,
        (∀ t ∈ toks, conv t = a.converter t) → conv bad = a.converter bad →
        ({ a with converter := conv } : ArgumentT Val).parse s argname = a.parse s argname := by
  obtain ⟨r, ⟨args⟩, vars⟩ := s
  simp only at hargs
  subst hargs
  have h1 := a.constLoop_fail argname r rest bad e hbad toks vals n 0 vars hk hconv
  constructor
  · rw [a.parse_const n _ _ hcount, h1]
    exact ⟨_, rfl, rfl, rfl, foldl_combine_target _ _ _ _,
      fun x hx => foldl_combine_other _ _ _ hx _ _⟩
  · intro conv hc hb
    have h2 := ArgumentT.constLoop_fail ({ a with converter := conv } : ArgumentT Val) argname
      r rest bad e (by simpa [hb] using hbad) toks vals n 0 vars hk (by
        rw [← hconv]
        exact List.map_congr_left hc)
    rw [a.parse_const n _ _ hcount, h1,
      ArgumentT.parse_const ({ a with converter := conv } : ArgumentT Val) n _ _ hcount, h2]

/-- C16, witness: `Exact(3)` at `int` with the combiner `Assign` on the stream
`1 x 3`: the parse throws at `x` with 1 assigned and `3` left in the stream. -/
theorem ArgumentT.parse_exact_fails_witness :
    ∃ s1, (⟨addrI, Count.ofSize 3, Assign, StandardConverter extractIntValue⟩ :
          ArgumentT Value).parse ⟨⟨"app", ""⟩, ⟨["1", "x", "3"]⟩, mainVars 0⟩ "POSITIONAL"
        = .throw (ParserError.new "Failed to parse x") s1
      ∧ s1.args.args = ["3"] ∧ s1.r = ⟨"app", ""⟩
      ∧ s1.vars addrI = [Value.int 1].foldl Assign (mainVars 0 addrI)
      ∧ ∀ x, x ≠ addrI → s1.vars x = mainVars 0 x :=
  (ArgumentT.parse_exact_fails ⟨addrI, Count.ofSize 3, Assign,
    StandardConverter extractIntValue⟩ 3 ⟨⟨"app", ""⟩, ⟨["1", "x", "3"]⟩, mainVars 0⟩
    "POSITIONAL" ["1"] ["3"] [Value.int 1] "x" (ParserError.new "Failed to parse x")
    rfl rfl (by decide) rfl rfl).1

/-- C17: an argument of arity `ZeroOrOne` returns with the state unchanged (no
token removed, the target as it was) when the stream is empty or its first
token is classified optional; else it removes exactly the first token and,
when the conversion succeeds with `v`, returns with the target holding
`combine` of its old value and `v`, every other variable, the rest of the
stream and the running context unchanged (when the conversion fails, it throws
with the token removed and no variable changed). -/
theorem ArgumentT.parse_zero_or_one {Val : Type} (a : ArgumentT Val) (s : State Val)
    (argname : String) (hcount : a.count.type = .Optional) :
    (s.args.args = [] → a.parse s argname = .ret s)
    ∧ (∀ tok rest, s.args.args = tok :: rest → IsOptional tok = true →
        a.parse s argname = .ret s)
    ∧ (∀ tok rest v, s.args.args = tok :: rest → IsOptional tok = false →
        a.converter tok = .ok v →
        ∃ s1, a.parse s argname = .ret s1
          ∧ s1.args.args = rest
          ∧ s1.vars a.target = a.combine (s.vars a.target) v
          ∧ (∀ x, x ≠ a.target → s1.vars x = s.vars x)
          ∧ s1.r = s.r)
    ∧ (∀ tok rest e, s.args.args = tok :: rest → IsOptional tok = false →
        a.converter tok = .error e →
        ∃ s1, a.parse s argname = .throw e s1
          ∧ s1.args.args = rest ∧ s1.vars = s.vars ∧ s1.r = s.r) := by
  refine ⟨fun h => ?_, fun tok rest h ho => ?_, fun tok rest v h ho hc => ?_,
    fun tok rest e h ho hc => ?_⟩
  · simp [ArgumentT.parse, hcount, Arguments.empty, h]
  · simp [ArgumentT.parse, hcount, Arguments.empty, Arguments.index, h, ho]
  · have hp : a.parse s argname = a.take s "internal error" := by
      simp only [ArgumentT.parse, hcount, Arguments.empty, Arguments.index, h, ho,
        List.isEmpty_cons, List.getD_cons_zero, Bool.false_eq_true, if_false]
    rw [hp, a.take_ok s _ tok rest v h hc]
    exact ⟨_, rfl, rfl, assignVar_same _ _ _, fun x hx => assignVar_other _ _ _ _ hx, rfl⟩
  · have hp : a.parse s argname = a.take s "internal error" := by
      simp only [ArgumentT.parse, hcount, Arguments.empty, Arguments.index, h, ho,
        List.isEmpty_cons, List.getD_cons_zero, Bool.false_eq_true, if_false]
    rw [hp, a.take_error s _ tok rest e h hc]
    exact ⟨_, rfl, rfl, rfl, rfl⟩

/-- C17, witness: a `ZeroOrOne` argument at `int` leaves the stream `-x 1` and
its target alone, and from the stream `7 8` takes `7`, after which its target
holds 7, `op` still holds 2 and the stream is `8`. -/
theorem ArgumentT.parse_zero_or_one_witness :
    (⟨addrI, Count.ofType .Optional, Assign, StandardConverter extractIntValue⟩ :
        ArgumentT Value).parse ⟨⟨"app", ""⟩, ⟨["-x", "1"]⟩, mainVars 0⟩ "POSITIONAL"
      = .ret ⟨⟨"app", ""⟩, ⟨["-x", "1"]⟩, mainVars 0⟩
    ∧ ∃ s1, (⟨addrI, Count.ofType .Optional, Assign, StandardConverter extractIntValue⟩ :
          ArgumentT Value).parse ⟨⟨"app", ""⟩, ⟨["7", "8"]⟩, mainVars 0⟩ "POSITIONAL"
        = .ret s1
      ∧ s1.args.args = ["8"] ∧ s1.vars addrI = .int 7 ∧ s1.vars addrOp = .int 2
      ∧ s1.r = ⟨"app", ""⟩ := by
  refine ⟨(ArgumentT.parse_zero_or_one ⟨addrI, Count.ofType .Optional, Assign,
      StandardConverter extractIntValue⟩ ⟨⟨"app", ""⟩, ⟨["-x", "1"]⟩, mainVars 0⟩
      "POSITIONAL" rfl).2.1 "-x" ["1"] rfl rfl, ?_⟩
  obtain ⟨s1, h1, h2, h3, h4, h5⟩ := (ArgumentT.parse_zero_or_one ⟨addrI,
      Count.ofType .Optional, Assign, StandardConverter extractIntValue⟩
      ⟨⟨"app", ""⟩, ⟨["7", "8"]⟩, mainVars 0⟩ "POSITIONAL" rfl).2.2.1 "7" ["8"]
      (Value.int 7) rfl rfl rfl
  exact ⟨s1, h1, h2, h3, (h4 addrOp (by decide)).trans rfl, h5⟩

/-- C18: the loop of `parseArgs` ends for every registry and token list: every
pass that returns has removed at least one token (the cursor unchanged) or
has advanced the cursor by one, from a position inside the positionals
(removing no, one or more tokens), so the sum of the tokens left and the
positionals not yet invoked has decreased; hence the loop gives its result
within any fuel above that sum, and `parseArgs` always gives a result. -/
theorem parseArgs_terminates {Val : Type} (p : Parser Val) (argv : List String)
    (vars : Nat → Val) (out error : String) :
    (∀ s s1 : LoopState Val, s.st.args.empty = false → p.dispatch s = .ret s1 →
      ((s1.st.args.size < s.st.args.size ∧ s1.positionalIndex = s.positionalIndex)
        ∨ (s.positionalIndex < p.positionals.length
          ∧ s1.positionalIndex = s.positionalIndex + 1
          ∧ s1.st.args.size ≤ s.st.args.size))
      ∧ s1.st.args.size + (p.positionals.length - s1.positionalIndex)
          < s.st.args.size + (p.positionals.length - s.positionalIndex))
    ∧ (∀ (s : LoopState Val) (fuel : Nat),
        s.st.args.size + (p.positionals.length - s.positionalIndex) < fuel →
        ∃ f, p.loop fuel s = some f)
    ∧ ∃ r, p.parseArgs argv vars out error = some r := by
  refine ⟨fun s s1 hne hd => ?_, fun s fuel hf => ?_, p.parseArgs_total argv vars out error⟩
  · have hm := p.dispatch_ret_measure s s1 hne hd
    refine ⟨?_, hm⟩
    rcases p.dispatch_progress s hne with h | h | ⟨e, h⟩
    · rw [hd] at h; exact Or.inl h
    · rw [hd] at h; exact Or.inr h
    · rw [hd] at h; cases h
  · exact (p.loop_fuel fuel fuel s hf hf).2

/-- C19: a parser made by the constructor, registrations and calls of
`parseArgs` has its cursor at most the number of its positionals, and so has
every state its loop reaches; the loop looks up `positionals[positionalIndex]`
only with the cursor below that number; and a pass that reads a token
classified optional ends with the cursor it began with. -/
theorem Parser.cursor_in_bounds {Val : Type} (p : Parser Val) (h : p.Reachable) :
    p.positionalIndex ≤ p.positionals.length
    ∧ (∀ (argv : List String) (vars : Nat → Val) (out : String) (k : Nat) (s : LoopState Val),
        p.passes k (p.start argv vars out) = some s →
        s.positionalIndex ≤ p.positionals.length)
    ∧ (∀ (s : LoopState Val) (tok : String) (rest : List String),
        s.st.args.args = tok :: rest → IsOptional tok = false →
        (p.positionals.length ≤ s.positionalIndex ∧ ∃ e, p.dispatch s = .throw e s)
        ∨ ∃ hi : s.positionalIndex < p.positionals.length,
          p.dispatch s = ((p.positionals.get ⟨s.positionalIndex, hi⟩).parse p s.st
            "POSITIONAL").withIndex (s.positionalIndex + 1))
    ∧ (∀ (s : LoopState Val) (tok : String) (rest : List String),
        s.st.args.args = tok :: rest → IsOptional tok = true →
        (p.dispatch s).state.positionalIndex = s.positionalIndex) := by
  have hle := Parser.Reachable.index_le p h
  refine ⟨hle, ?_, ?_, ?_⟩
  · intro argv vars out k s hk
    exact p.passes_index_le k _ s hk hle
  · intro s tok rest hargs ho
    by_cases hi : s.positionalIndex < p.positionals.length
    · exact Or.inr ⟨hi, p.dispatch_positional s tok rest hargs ho hi⟩
    · exact Or.inl ⟨Nat.le_of_not_lt hi, _,
        p.dispatch_consumed s tok rest hargs ho (Nat.le_of_not_lt hi)⟩
  · intro s tok rest hargs ho
    rw [p.dispatch_optional s tok rest hargs ho]
    cases Optionals.find p.optionals tok with
    | none => rfl
    | some r => rw [Flow.withIndex_state]

/-- C19, witness: the parser of `main` after it has parsed `gcc 5` has its
cursor, 2, at most the number of its positionals. -/
theorem Parser.cursor_in_bounds_witness :
    ∃ r, mainParser.parseArgs ["app", "gcc", "5"] (mainVars 0) "" "" = some r
      ∧ r.parser.positionalIndex = 2
      ∧ r.parser.positionalIndex ≤ r.parser.positionals.length :=
  ⟨_, rfl, rfl, (Parser.cursor_in_bounds _
    (Parser.Reachable.parseArgs mainParser ["app", "gcc", "5"] (mainVars 0) "" "" _
      mainParser_reachable rfl)).1⟩

/-- C20: `Parser::operator()` registers the same parser whatever converter it
is passed, namely the one `add` registers with `StandardConverter`; so the two
parsers give the same result (status, variables, streams) on every token
list.  As an instance, an `int` positional registered with a converter that
always fails still converts the token `5` to 5. -/
theorem Parser.call_ignores_converter {Val : Type} (p : Parser Val)
    (extract : String → Option Val) (name : String) (var : Nat) (extra : Extra)
    (combiner : Val → Val → Val) (c1 c2 : String → Except ParserError Val)
    (argv : List String) (vars : Nat → Val) (out error : String) :
    p.call extract name var extra combiner c1 = p.call extract name var extra combiner c2
    ∧ p.call extract name var extra combiner c1
        = p.add name var extra combiner (StandardConverter extract)
    ∧ (p.call extract name var extra combiner c1).parseArgs argv vars out error
        = (p.call extract name var extra combiner c2).parseArgs argv vars out error
    ∧ ∃ r, ((Parser.new "description" "" : Parser Value).call extractIntValue "int" addrI
          Extra.new Assign (fun _ => .error (ParserError.new "never"))).parseArgs
          ["app", "5"] (mainVars 0) "" "" = some r
        ∧ r.outcome = .returned .ParseComplete ∧ r.vars addrI = .int 5 :=
  ⟨rfl, rfl, rfl, _, rfl, rfl, rfl⟩

/-- C8, as amended: `parseArgs` always ends.  When it returns `ParseFailed`, a
`ParserError` `e` has left the `try` block, the error stream holds what it held
followed by the program name, `: `, the message of `e` and two line ends, and
the output stream holds what it held, then the text that the user callbacks
invoked by the loop wrote to it, then the usage synopsis.  When it returns
`ParseComplete`, the error stream is unchanged and the output stream holds
what it held followed by the text of the user callbacks only.  That text is
empty when no user callback is registered. -/
theorem parseArgs_sinks {Val : Type} (p : Parser Val) (argv : List String)
    (vars : Nat → Val) (out error : String) :
    ∃ r, p.parseArgs argv vars out error = some r
      ∧ (r.outcome = .returned .ParseFailed →
          (∃ e s, p.tryBlock (p.fuel (Arguments.new argv)) (p.start argv vars out)
              = some (.throw e s)
            ∧ r.error = error ++ argv.headD "" ++ ": " ++ e.what ++ "\n" ++ "\n")
          ∧ r.out = out
              ++ p.loopWritten (p.fuel (Arguments.new argv)) (p.start argv vars out)
              ++ p.usageText (argv.headD ""))
      ∧ (r.outcome = .returned .ParseComplete →
          r.error = error
          ∧ r.out = out
              ++ p.loopWritten (p.fuel (Arguments.new argv)) (p.start argv vars out))
      ∧ (p.noUserCallback →
          p.loopWritten (p.fuel (Arguments.new argv)) (p.start argv vars out) = ""
          ∧ (r.outcome = .returned .ParseFailed →
              r.out = out ++ p.usageText (argv.headD ""))
          ∧ (r.outcome = .returned .ParseComplete → r.out = out)) := by
  obtain ⟨r, hr⟩ := p.parseArgs_total argv vars out error
  have hr2 := hr
  simp only [Parser.parseArgs, Option.map_eq_some'] at hr2
  obtain ⟨f, hf, hcatch⟩ := hr2
  have hfailed : r.outcome = .returned .ParseFailed →
      (∃ e s, p.tryBlock (p.fuel (Arguments.new argv)) (p.start argv vars out)
          = some (.throw e s)
        ∧ r.error = error ++ argv.headD "" ++ ": " ++ e.what ++ "\n" ++ "\n")
      ∧ r.out = out
          ++ p.loopWritten (p.fuel (Arguments.new argv)) (p.start argv vars out)
          ++ p.usageText (argv.headD "") := by
    intro ho
    cases f with
    | ret s => rw [← hcatch] at ho; simp [Parser.catchBlock] at ho
    | exit c s => rw [← hcatch] at ho; simp [Parser.catchBlock] at ho
    | throw e s =>
      obtain ⟨h1, h2⟩ := p.tryBlock_written _ _ _ hf (by intro c s1 hc; cases hc)
      simp only [Parser.start, Flow.state] at h1 h2
      refine ⟨⟨e, s, hf, by rw [← hcatch]; rfl⟩, ?_⟩
      rw [← hcatch]
      simp only [Parser.catchBlock, Parser.writeUsage_o, h1, h2, Parser.start]
  have hcomplete : r.outcome = .returned .ParseComplete →
      r.error = error
      ∧ r.out = out
          ++ p.loopWritten (p.fuel (Arguments.new argv)) (p.start argv vars out) := by
    intro ho
    cases f with
    | throw e s => rw [← hcatch] at ho; simp [Parser.catchBlock] at ho
    | exit c s => rw [← hcatch] at ho; simp [Parser.catchBlock] at ho
    | ret s =>
      obtain ⟨_, h2⟩ := p.tryBlock_written _ _ _ hf (by intro c s1 hc; cases hc)
      simp only [Parser.start, Flow.state] at h2
      rw [← hcatch]
      exact ⟨rfl, by simp only [Parser.catchBlock, h2, Parser.start]⟩
  refine ⟨r, hr, hfailed, hcomplete, fun hn => ?_⟩
  have hw := p.loopWritten_builtin hn (p.fuel (Arguments.new argv)) (p.start argv vars out)
  refine ⟨hw, fun ho => ?_, fun ho => ?_⟩
  · rw [(hfailed ho).2, hw, String.append_empty]
  · rw [(hcomplete ho).2, hw, String.append_empty]

/-- C8, witness: a parser whose optional `-v` is a user callback writing `hello`
to the output stream, on the tokens `-v x`, returns `ParseFailed` with the
output stream holding `hello` and then the usage synopsis. -/
theorem parseArgs_sinks_witness :
    ∃ r, ((Parser.new "description" "" : Parser Value).callFunction "-v"
          (.function (fun _ _ vars _ => ⟨.ret (), "hello", 0, vars⟩))
          (Extra.new.count (Count.ofType .None))).parseArgs ["app", "-v", "x"]
          (mainVars 0) "" "" = some r
      ∧ r.outcome = .returned .ParseFailed
      ∧ r.out = "hello" ++ "usage: app [-h ] [-v ]\n" := by
  obtain ⟨r, hr, hfail, _, _⟩ := parseArgs_sinks
    ((Parser.new "description" "" : Parser Value).callFunction "-v"
      (.function (fun _ _ vars _ => ⟨.ret (), "hello", 0, vars⟩))
      (Extra.new.count (Count.ofType .None))) ["app", "-v", "x"] (mainVars 0) "" ""
  have h0 : (((Parser.new "description" "" : Parser Value).callFunction "-v"
      (.function (fun _ _ vars _ => ⟨.ret (), "hello", 0, vars⟩))
      (Extra.new.count (Count.ofType .None))).parseArgs ["app", "-v", "x"]
      (mainVars 0) "" "").map (fun r => r.outcome) = some (.returned .ParseFailed) := rfl
  rw [hr] at h0
  simp only [Option.map_some', Option.some.injEq] at h0
  exact ⟨r, hr, h0, (hfail h0).2.trans (by decide)⟩

/-- C8, counterexample: the parser of `main` on the single token `gcc` returns
`ParseFailed` having written the usage synopsis to the output stream, which
is therefore changed, and only the diagnostic to the error stream. -/
theorem parseArgs_sinks_counterexample :
    ∃ r, mainParser.parseArgs ["app", "gcc"] (mainVars 0) "" "" = some r
      ∧ r.outcome = .returned .ParseFailed
      ∧ r.out = "usage: app [-h ] [-op [OP]] [-strings string [string ...]] [compiler] [int]\n"
      ∧ r.error = "app: error: too few arguments\n\n" :=
  ⟨_, rfl, rfl, by decide, by decide⟩

end argparse
